import Mathlib

/-!
# MergeTreeReaderStream

A shallow embedding of `src/Storages/MergeTree/MergeTreeReaderStream.cpp`:
the byte-range resolver `getRightOffsetAndBytesRange`, the constructor, and
the operations `seekToMark`, `seekToStart` and `adjustForRange`; and of the
table of scale factors of `src/Functions/fromReadableSize.cpp`.

Conventions.

* `size_t` values are natural numbers below `2 ^ 64`; the only arithmetic the
  file performs on them that can leave that range is the subtraction that
  produces `mark_range_bytes` (and the sum in the constructor), which is taken
  modulo `2 ^ 64`.
* A mark lookup outside the loaded mark array has no defined result in the
  program; here it yields `none`, and every function that performs lookups
  returns an `Option`.
* Classes that the file uses but does not define (the marks loader, the two
  compressed read buffers, the exception class, the read settings) are modelled
  from the specification; each such definition says so.
-/

namespace DB

/-! ## Machine integers -/

/-- Subtraction of two `size_t` values, which wraps around modulo `2 ^ 64`. -/
def sizeSub (a b : Nat) : Nat := (a + (2 ^ 64 - b % 2 ^ 64)) % 2 ^ 64

/-- Addition of two `size_t` values, which wraps around modulo `2 ^ 64`. -/
def sizeAdd (a b : Nat) : Nat := (a + b) % 2 ^ 64

/-! ## Marks -/

/-- A mark: the offset of a compressed block in the file and the offset of the
row group inside the decompressed block. -/
structure MarkInCompressedFile where
  offset_in_compressed_file : Nat
  offset_in_decompressed_block : Nat
deriving DecidableEq, Repr

/-- Modelled from the spec: the mark store (class `MergeTreeMarksLoader`, which
is not among the sources). It is an ordered sequence of marks addressed by a
dense index `0..marks_count`, and the reader only calls its by-index accessor. -/
structure MergeTreeMarksLoader where
  marks : List MarkInCompressedFile
deriving DecidableEq, Repr

/-- Modelled from the spec: `getMark(index) -> Mark`, the by-index accessor of
the mark store. An index outside the sequence has no mark. -/
def MergeTreeMarksLoader.getMark (l : MergeTreeMarksLoader) (index : Nat) :
    Option MarkInCompressedFile :=
  l.marks[index]?

/-- A half-open range of mark indices. -/
structure MarkRange where
  begin : Nat
  «end» : Nat
deriving DecidableEq, Repr

/-! ## Collaborators of the stream -/

/-- Modelled from the spec: the exception class (not among the sources), a
typed error value carrying an error kind plus a mutable context-message list. -/
structure Exception where
  code : Int
  message : String
  context : List String := []
deriving DecidableEq, Repr

/-- Modelled from the spec: `addMessage` of the exception class appends one
context entry and leaves the error kind and the original message alone. -/
def Exception.addMessage (e : Exception) (arg : String) : Exception :=
  { e with context := e.context ++ [arg] }

/-- Modelled from the spec: the read settings (class `ReadSettings`, not among
the sources). Only two things happen to them in this file: the settings of the
reader are taken as they are, or `adjustBufferSize` is applied to them; the
value records which. -/
inductive ReadSettings where
  | default : ReadSettings
  | adjustBufferSize (base : ReadSettings) (size : Nat) : ReadSettings
deriving DecidableEq, Repr

/-- The settings of the reader that the constructor consults. -/
structure MergeTreeReaderSettings where
  read_settings : ReadSettings := ReadSettings.default
  save_marks_in_cache : Bool := false
  checksum_on_read : Bool := true
deriving DecidableEq, Repr

/-- Modelled from the spec: the decoding buffer of the compression layer
(classes `CompressedReadBufferFromFile` and `CachedCompressedReadBuffer`, not
among the sources). It exposes `seek(physical_offset, in_block_offset)` and
`setReadUntilPosition(limit)`, a checksum toggle and a profiling callback.
The record keeps the position and the limit, how the underlying file was
opened, and the calls received so far, oldest first. -/
structure CompressedReadBuffer where
  read_settings : ReadSettings
  read_hint : Nat
  profile_callback : Bool
  checksumming : Bool
  position : Nat × Nat := (0, 0)
  read_until_position : Option Nat := none
  seek_calls : List (Nat × Nat) := []
  read_until_calls : List Nat := []
deriving DecidableEq, Repr

/-- What the translation unit takes from the rest of the program: the value of
the error code `ARGUMENT_OUT_OF_BOUND`, which the file only declares, and the
outcome of a seek in the file underneath a buffer (`none` when it succeeds, the
exception it throws otherwise), which depends on the buffer and the target. -/
structure External where
  ARGUMENT_OUT_OF_BOUND : Int
  seek_outcome : CompressedReadBuffer → Nat → Nat → Option Exception

/-- Modelled from the spec: `seek` of a decoding buffer. The call is recorded;
when the seek succeeds the buffer is positioned at the pair of offsets, and
when it fails the exception is returned next to the buffer, whose position and
limit are as before. -/
def CompressedReadBuffer.seek (ext : External) (b : CompressedReadBuffer)
    (offset_in_compressed_file offset_in_decompressed_block : Nat) :
    CompressedReadBuffer × Option Exception :=
  match ext.seek_outcome b offset_in_compressed_file offset_in_decompressed_block with
  | some e =>
    ({ b with seek_calls :=
        b.seek_calls ++ [(offset_in_compressed_file, offset_in_decompressed_block)] }, some e)
  | none =>
    ({ b with
        position := (offset_in_compressed_file, offset_in_decompressed_block)
        seek_calls :=
          b.seek_calls ++ [(offset_in_compressed_file, offset_in_decompressed_block)] }, none)

/-- Modelled from the spec: `setReadUntilPosition` of a decoding buffer sets the
limit past which the buffer does not read; the call is recorded. -/
def CompressedReadBuffer.setReadUntilPosition (b : CompressedReadBuffer) (position : Nat) :
    CompressedReadBuffer :=
  { b with
      read_until_position := some position
      read_until_calls := b.read_until_calls ++ [position] }

/-! ## The stream -/

/-- The member of the stream that the pointer `data_buffer` points into. -/
inductive BufferMember where
  | cached_buffer : BufferMember
  | non_cached_buffer : BufferMember
deriving DecidableEq, Repr

/-- The members of `MergeTreeReaderStream` that the file reads or writes.
`data_buffer` is a plain pointer to one of the two buffers; it is kept as the
name of the member it points into, and is unset before the constructor assigns
it. The declaration of the class is not among the sources; the initial value
`0` of `last_right_offset` and the two buffers starting out unset are as the
specification describes a stream before construction. -/
structure MergeTreeReaderStream where
  path_prefix : String
  data_file_extension : String
  marks_count : Nat
  file_size : Nat
  save_marks_in_cache : Bool := false
  marks_loader : MergeTreeMarksLoader
  cached_buffer : Option CompressedReadBuffer := none
  non_cached_buffer : Option CompressedReadBuffer := none
  data_buffer : Option BufferMember := none
  last_right_offset : Nat := 0
deriving DecidableEq, Repr

namespace MergeTreeReaderStream

/-! ### `getRightOffsetAndBytesRange` -/

/-- The comparator handed to `std::upper_bound`:
`getMark(i).offset_in_compressed_file < getMark(j).offset_in_compressed_file`. -/
def markOffsetLess (s : MergeTreeReaderStream) (i j : Nat) : Option Bool :=
  match s.marks_loader.getMark i, s.marks_loader.getMark j with
  | some a, some b => some (decide (a.offset_in_compressed_file < b.offset_in_compressed_file))
  | _, _ => none

/-- The loop of `std::upper_bound(first, last, val, comp)` over a range of
indices: `first` is the index the iterator points at and `len` the number of
indices still under consideration. Each round halves `len`, so `len` rounds
are always enough; the first argument bounds the number of rounds, and running
out of rounds with indices left yields `none`, as does a failed lookup in the
comparator. -/
def upper_bound (comp : Nat → Nat → Option Bool) (val : Nat) : Nat → Nat → Nat → Option Nat
  | 0, first, len => if len = 0 then some first else none
  | rounds + 1, first, len =>
    if len = 0 then some first
    else
      let half := len / 2
      let middle := first + half
      match comp val middle with
      | none => none
      | some true => upper_bound comp val rounds first half
      | some false => upper_bound comp val rounds (middle + 1) (len - half - 1)

/-- Lines 105-115: the right mark after the extension over the marks that share
the block in which the range ends. -/
def resultRightMark (s : MergeTreeReaderStream) (right_mark : Nat) : Option Nat :=
  if right_mark < s.marks_count then
    match s.marks_loader.getMark right_mark with
    | none => none
    | some m =>
      if m.offset_in_decompressed_block > 0 then
        match upper_bound s.markOffsetLess right_mark (s.marks_count - right_mark)
            right_mark (s.marks_count - right_mark) with
        | none => none
        | some it => some (if it = s.marks_count then s.marks_count else it)
      else some right_mark
  else some right_mark

/-- Lines 121-123: the test "there are no marks after the end of range". -/
def useFileSize (s : MergeTreeReaderStream) (result_right_mark right_mark : Nat) : Option Bool :=
  if result_right_mark ≥ s.marks_count then some true
  else if result_right_mark + 1 = s.marks_count then
    match s.marks_loader.getMark result_right_mark, s.marks_loader.getMark right_mark with
    | some a, some b => some (decide (a.offset_in_compressed_file = b.offset_in_compressed_file))
    | _, _ => none
  else some false

/-- Lines 99-135: the pair `(right_offset, mark_range_bytes)` of a mark range. -/
def getRightOffsetAndBytesRange (s : MergeTreeReaderStream) (left_mark right_mark : Nat) :
    Option (Nat × Nat) :=
  match s.resultRightMark right_mark with
  | none => none
  | some result_right_mark =>
    match s.useFileSize result_right_mark right_mark with
    | none => none
    | some true =>
      if left_mark < s.marks_count then
        match s.marks_loader.getMark left_mark with
        | none => none
        | some l => some (s.file_size, sizeSub s.file_size l.offset_in_compressed_file)
      else some (s.file_size, sizeSub s.file_size 0)
    | some false =>
      match s.marks_loader.getMark result_right_mark, s.marks_loader.getMark left_mark with
      | some r, some l =>
        some (r.offset_in_compressed_file,
          sizeSub r.offset_in_compressed_file l.offset_in_compressed_file)
      | _, _ => none

/-! ### The constructor -/

/-- Lines 37-48: the loop over `all_mark_ranges`, which carries
`(max_mark_range_bytes, sum_mark_range_bytes)`. -/
def markRangeBytes (s : MergeTreeReaderStream) : List MarkRange → Nat × Nat → Option (Nat × Nat)
  | [], acc => some acc
  | mark_range :: rest, (max_mark_range_bytes, sum_mark_range_bytes) =>
    match s.getRightOffsetAndBytesRange mark_range.begin mark_range.end with
    | none => none
    | some (_, mark_range_bytes) =>
      markRangeBytes s rest
        (max max_mark_range_bytes mark_range_bytes, sizeAdd sum_mark_range_bytes mark_range_bytes)

/-- Lines 52-54: the read settings with which the file is opened. -/
def adjustedReadSettings (settings : MergeTreeReaderSettings) (max_mark_range_bytes : Nat) :
    ReadSettings :=
  if max_mark_range_bytes ≠ 0 then
    ReadSettings.adjustBufferSize settings.read_settings max_mark_range_bytes
  else settings.read_settings

/-- Lines 59-74 and 81-91: the buffer that either branch builds. Both pass the
same read settings and the same size hint to `readFile`, set the profile
callback when there is one and disable checksumming when the settings ask
for it. -/
def openBuffer (settings : MergeTreeReaderSettings) (read_settings : ReadSettings)
    (sum_mark_range_bytes : Nat) (profile_callback : Bool) : CompressedReadBuffer :=
  { read_settings := read_settings
    read_hint := sum_mark_range_bytes
    profile_callback := profile_callback
    checksumming := if !settings.checksum_on_read then false else true }

/-- Lines 16-96: the constructor. `marks_loader_` stands for the marks that the
loader reads from the marks file, `uncompressed_cache` and `profile_callback`
tell whether the pointer, respectively the callback, is set. -/
def create ( path_prefix_ data_file_extension_ : String) (marks_count_ : Nat)
    (all_mark_ranges : List MarkRange) (settings : MergeTreeReaderSettings)
    (marks_loader_ : MergeTreeMarksLoader) (uncompressed_cache : Bool) (file_size_ : Nat)
    (profile_callback : Bool) : Option MergeTreeReaderStream :=
  let this : MergeTreeReaderStream :=
    { path_prefix := path_prefix_
      data_file_extension := data_file_extension_
      marks_count := marks_count_
      file_size := file_size_
      save_marks_in_cache := settings.save_marks_in_cache
      marks_loader := marks_loader_ }
  match this.markRangeBytes all_mark_ranges (0, 0) with
  | none => none
  | some (max_mark_range_bytes, sum_mark_range_bytes) =>
    let read_settings := adjustedReadSettings settings max_mark_range_bytes
    let buffer := openBuffer settings read_settings sum_mark_range_bytes profile_callback
    if uncompressed_cache then
      some { this with
        cached_buffer := some buffer
        data_buffer := some BufferMember.cached_buffer }
    else
      some { this with
        non_cached_buffer := some buffer
        data_buffer := some BufferMember.non_cached_buffer }

/-! ### Seeking and adjusting -/

/-- The state in which a call leaves the stream, and the exception that the
call lets escape, if any. -/
structure Outcome where
  state : MergeTreeReaderStream
  thrown : Option Exception := none

/-- The body of the `try` blocks of `seekToMark` and `seekToStart`: seek the
cached buffer if it is set, then the other one if it is set. An exception
leaves the block at once. -/
def seekBuffers (ext : External) (s : MergeTreeReaderStream)
    (offset_in_compressed_file offset_in_decompressed_block : Nat) : Outcome :=
  let afterCached : Outcome :=
    match s.cached_buffer with
    | some b =>
      let r := b.seek ext offset_in_compressed_file offset_in_decompressed_block
      { state := { s with cached_buffer := some r.1 }, thrown := r.2 }
    | none => { state := s }
  match afterCached.thrown with
  | some e => { state := afterCached.state, thrown := some e }
  | none =>
    match afterCached.state.non_cached_buffer with
    | some b =>
      let r := b.seek ext offset_in_compressed_file offset_in_decompressed_block
      { state := { afterCached.state with non_cached_buffer := some r.1 }, thrown := r.2 }
    | none => { state := afterCached.state }

/-- The context entry that `seekToMark` adds to an out-of-bound exception. -/
def seekToMarkMessage (s : MergeTreeReaderStream) (index : Nat) (mark : MarkInCompressedFile) :
    String :=
  "(while seeking to mark " ++ toString index
    ++ " of column " ++ s.path_prefix ++ "; offsets are: "
    ++ toString mark.offset_in_compressed_file ++ " "
    ++ toString mark.offset_in_decompressed_block ++ ")"

/-- Lines 138-160: `seekToMark(index)`. -/
def seekToMark (ext : External) (s : MergeTreeReaderStream) (index : Nat) : Option Outcome :=
  match s.marks_loader.getMark index with
  | none => none
  | some mark =>
    let r := s.seekBuffers ext mark.offset_in_compressed_file mark.offset_in_decompressed_block
    match r.thrown with
    | none => some r
    | some e =>
      if e.code = ext.ARGUMENT_OUT_OF_BOUND then
        some { state := r.state, thrown := some (e.addMessage (s.seekToMarkMessage index mark)) }
      else some { state := r.state, thrown := some e }

/-- The context entry that `seekToStart` adds to an out-of-bound exception. -/
def seekToStartMessage (s : MergeTreeReaderStream) : String :=
  "(while seeking to start of column " ++ s.path_prefix ++ ")"

/-- Lines 163-180: `seekToStart()`. -/
def seekToStart (ext : External) (s : MergeTreeReaderStream) : Outcome :=
  let r := s.seekBuffers ext 0 0
  match r.thrown with
  | none => r
  | some e =>
    if e.code = ext.ARGUMENT_OUT_OF_BOUND then
      { state := r.state, thrown := some (e.addMessage s.seekToStartMessage) }
    else { state := r.state, thrown := some e }

/-- Lines 183-194: `adjustForRange(left_mark, right_mark)`. -/
def adjustForRange (s : MergeTreeReaderStream) (left_mark right_mark : Nat) :
    Option MergeTreeReaderStream :=
  match s.getRightOffsetAndBytesRange left_mark right_mark with
  | none => none
  | some (right_offset, _) =>
    if right_offset > s.last_right_offset then
      some { s with
        last_right_offset := right_offset
        cached_buffer :=
          s.cached_buffer.map fun b => b.setReadUntilPosition right_offset
        non_cached_buffer :=
          s.non_cached_buffer.map fun b => b.setReadUntilPosition right_offset }
    else some s

/-! ### Sequences of calls -/

/-- A call of one of the three operations of a constructed stream. -/
inductive Call where
  | seekToMark (index : Nat) : Call
  | seekToStart : Call
  | adjustForRange (left_mark right_mark : Nat) : Call
deriving DecidableEq, Repr

/-- The state after one call. A call that throws leaves the object in the
state reached when the exception escaped; a call that looks up a mark outside
the array has no defined state. -/
def step (ext : External) (s : MergeTreeReaderStream) : Call → Option MergeTreeReaderStream
  | Call.seekToMark index => (s.seekToMark ext index).map Outcome.state
  | Call.seekToStart => some (s.seekToStart ext).state
  | Call.adjustForRange left_mark right_mark => s.adjustForRange left_mark right_mark

/-- The states after each call of a sequence, in order, as far as they are
defined. -/
def run (ext : External) (s : MergeTreeReaderStream) : List Call → List MergeTreeReaderStream
  | [] => []
  | c :: cs =>
    match s.step ext c with
    | none => []
    | some s' => s' :: run ext s' cs

/-! ### Vocabulary of the statements -/

/-- The physical offset of mark `i`; `0` when there is no such mark. -/
def physicalOffset (s : MergeTreeReaderStream) (i : Nat) : Nat :=
  match s.marks_loader.getMark i with
  | some m => m.offset_in_compressed_file
  | none => 0

/-- The in-block offset of mark `i`; `0` when there is no such mark. -/
def inBlockOffset (s : MergeTreeReaderStream) (i : Nat) : Nat :=
  match s.marks_loader.getMark i with
  | some m => m.offset_in_decompressed_block
  | none => 0

/-- The left physical offset of a range: the offset of `left_mark`, or `0` when
`left_mark` is not below `marks_count`. -/
def leftOffset (s : MergeTreeReaderStream) (left_mark : Nat) : Nat :=
  if left_mark < s.marks_count then s.physicalOffset left_mark else 0

/-- The mark array has `marks_count` marks. -/
abbrev MarksLoaded (s : MergeTreeReaderStream) : Prop :=
  s.marks_loader.marks.length = s.marks_count

/-- The file size and the offsets of all marks are values of `size_t`. -/
abbrev InSizeRange (s : MergeTreeReaderStream) : Prop :=
  s.file_size < 2 ^ 64 ∧
    ∀ m ∈ s.marks_loader.marks,
      m.offset_in_compressed_file < 2 ^ 64 ∧ m.offset_in_decompressed_block < 2 ^ 64

/-- Physical offsets are non-decreasing in the mark index. -/
abbrev NonDecreasing (s : MergeTreeReaderStream) : Prop :=
  List.Pairwise (fun a b => a ≤ b)
    (s.marks_loader.marks.map fun m => m.offset_in_compressed_file)

/-- No mark lies beyond the end of the file. -/
abbrev WithinFile (s : MergeTreeReaderStream) : Prop :=
  ∀ m ∈ s.marks_loader.marks, m.offset_in_compressed_file ≤ s.file_size

/-- The specification's forward search, as a linear scan: the first index among
`k, k + 1, ..., k + n - 1` whose physical offset differs from that of
`right_mark`. -/
def scanForDifferentOffset (s : MergeTreeReaderStream) (right_mark : Nat) : Nat → Nat → Option Nat
  | 0, _ => none
  | n + 1, k =>
    if s.physicalOffset k ≠ s.physicalOffset right_mark then some k
    else scanForDifferentOffset s right_mark n (k + 1)

/-- The specification's `result_right_mark` for a range that ends inside a
block: the first mark index from `right_mark` on whose physical offset differs
from that of `right_mark`, and `marks_count` if none exists before
`marks_count`. -/
def specResultRightMark (s : MergeTreeReaderStream) (right_mark : Nat) : Nat :=
  match s.scanForDifferentOffset right_mark (s.marks_count - right_mark) right_mark with
  | some k => k
  | none => s.marks_count

end MergeTreeReaderStream

/-! ## Concrete streams -/

/-- Ten marks over a file of 500 bytes; marks 1 to 3 share the block at offset
100 and marks 2 and 3 lie inside it. -/
def sharedBlockStream : MergeTreeReaderStream :=
  { path_prefix := "column"
    data_file_extension := ".bin"
    marks_count := 10
    file_size := 500
    marks_loader :=
      ⟨[⟨0, 0⟩, ⟨100, 0⟩, ⟨100, 40⟩, ⟨100, 80⟩, ⟨300, 0⟩,
        ⟨300, 25⟩, ⟨400, 0⟩, ⟨400, 10⟩, ⟨450, 0⟩, ⟨450, 5⟩]⟩ }

/-- The same physical offsets as `sharedBlockStream`, every mark at the start
of its block. -/
def blockStartStream : MergeTreeReaderStream :=
  { path_prefix := "column"
    data_file_extension := ".bin"
    marks_count := 10
    file_size := 500
    marks_loader :=
      ⟨[⟨0, 0⟩, ⟨100, 0⟩, ⟨100, 0⟩, ⟨100, 0⟩, ⟨300, 0⟩,
        ⟨300, 0⟩, ⟨400, 0⟩, ⟨400, 0⟩, ⟨450, 0⟩, ⟨450, 0⟩]⟩ }

/-- Three marks that all point to the start of one block at offset 100, in a
file of 500 bytes. -/
def singleBlockStream : MergeTreeReaderStream :=
  { path_prefix := "column"
    data_file_extension := ".bin"
    marks_count := 3
    file_size := 500
    marks_loader := ⟨[⟨100, 0⟩, ⟨100, 0⟩, ⟨100, 0⟩]⟩ }

/-- Ten marks over a file of 1000 bytes, mark 8 at offset 900. -/
def endOfFileStream : MergeTreeReaderStream :=
  { path_prefix := "column"
    data_file_extension := ".bin"
    marks_count := 10
    file_size := 1000
    marks_loader :=
      ⟨[⟨0, 0⟩, ⟨100, 0⟩, ⟨200, 0⟩, ⟨300, 0⟩, ⟨400, 0⟩,
        ⟨500, 0⟩, ⟨600, 0⟩, ⟨700, 0⟩, ⟨900, 0⟩, ⟨950, 0⟩]⟩ }

/-! ## Vocabulary for sequences of calls, and concrete environments -/

namespace MergeTreeReaderStream

/-- Exactly one of the two buffers is populated, and it is `b`: the active
buffer of the stream. -/
abbrev HasOnlyBuffer (s : MergeTreeReaderStream) (b : CompressedReadBuffer) : Prop :=
  (s.cached_buffer = some b ∧ s.non_cached_buffer = none) ∨
    (s.cached_buffer = none ∧ s.non_cached_buffer = some b)

/-- The limits pushed so far to a populated buffer are strictly increasing and
none exceeds the watermark `last_right_offset`; once a limit has been pushed,
the limit of the buffer is the watermark. -/
def LimitsFollowWatermark (s : MergeTreeReaderStream) : Prop :=
  ∀ b, (s.cached_buffer = some b ∨ s.non_cached_buffer = some b) →
    List.Pairwise (fun x y => x < y) b.read_until_calls ∧
    (∀ x ∈ b.read_until_calls, x ≤ s.last_right_offset) ∧
    (b.read_until_calls ≠ [] → b.read_until_position = some s.last_right_offset)

end MergeTreeReaderStream

/-- An environment in which every seek succeeds. -/
def seeksSucceed : External :=
  { ARGUMENT_OUT_OF_BOUND := 69
    seek_outcome := fun _ _ _ => none }

/-- An environment in which a seek beyond offset 400 fails with the
out-of-bound error. -/
def seeksFailPast400 : External :=
  { ARGUMENT_OUT_OF_BOUND := 69
    seek_outcome := fun _ offset _ =>
      if offset > 400 then some { code := 69, message := "Seek position is out of bounds" }
      else none }

/-- The marks of `sharedBlockStream` with the plain buffer that the constructor
opens for the ranges `(1, 2)` and `(5, 7)`. -/
def sharedBlockReader : MergeTreeReaderStream :=
  { sharedBlockStream with
    non_cached_buffer :=
      some { read_settings := ReadSettings.adjustBufferSize ReadSettings.default 200
             read_hint := 350
             profile_callback := false
             checksumming := true }
    data_buffer := some BufferMember.non_cached_buffer }

/-! ## Vocabulary for the constructor and for orderings of the marks -/

namespace MergeTreeReaderStream

/-- The object as the member initialisers of the constructor leave it, before
the body of the constructor runs. -/
def initialised ( path_prefix_ data_file_extension_ : String) (marks_count_ : Nat)
    (settings : MergeTreeReaderSettings) (marks_loader_ : MergeTreeMarksLoader)
    (file_size_ : Nat) : MergeTreeReaderStream :=
  { path_prefix := path_prefix_
    data_file_extension := data_file_extension_
    marks_count := marks_count_
    file_size := file_size_
    save_marks_in_cache := settings.save_marks_in_cache
    marks_loader := marks_loader_ }

/-- The spans that the resolver returns for the ranges of a list, in order;
`none` when one of the resolutions looks up a mark outside the array. -/
def resolvedSpans (s : MergeTreeReaderStream) : List MarkRange → Option (List Nat)
  | [] => some []
  | mark_range :: rest =>
    match s.getRightOffsetAndBytesRange mark_range.begin mark_range.end, resolvedSpans s rest with
    | some (_, mark_range_bytes), some spans => some (mark_range_bytes :: spans)
    | _, _ => none

/-- The specification's `max_span`: the largest span of a list, `0` for the
empty list. -/
def maxSpan : List Nat → Nat
  | [] => 0
  | span :: spans => max span (maxSpan spans)

/-- The specification's `sum_spans`, as a value of `size_t`: the sum of the
spans modulo `2 ^ 64`. -/
def sumSpans (spans : List Nat) : Nat := spans.sum % 2 ^ 64

/-- Among marks that share a physical offset, a mark that follows a mark inside
the block is inside the block too. -/
abbrev InBlockOrdered (s : MergeTreeReaderStream) : Prop :=
  List.Pairwise
    (fun a b : MarkInCompressedFile =>
      a.offset_in_compressed_file = b.offset_in_compressed_file →
        0 < a.offset_in_decompressed_block → 0 < b.offset_in_decompressed_block)
    s.marks_loader.marks

end MergeTreeReaderStream

/-- Three marks in one block at offset 100 of a file of 500 bytes; the first
lies inside the block, the two after it at its start. -/
def decreasingInBlockStream : MergeTreeReaderStream :=
  { path_prefix := "column"
    data_file_extension := ".bin"
    marks_count := 3
    file_size := 500
    marks_loader := ⟨[⟨100, 5⟩, ⟨100, 0⟩, ⟨100, 0⟩]⟩ }

/-- Three marks whose physical offsets decrease, in a file of 500 bytes. -/
def unorderedStream : MergeTreeReaderStream :=
  { path_prefix := "column"
    data_file_extension := ".bin"
    marks_count := 3
    file_size := 500
    marks_loader := ⟨[⟨300, 7⟩, ⟨200, 0⟩, ⟨100, 3⟩]⟩ }

/-- An environment in which every seek fails with an error that is not the
out-of-bound error. -/
def seeksFailOtherwise : External :=
  { ARGUMENT_OUT_OF_BOUND := 69
    seek_outcome := fun _ _ _ => some { code := 3, message := "Unexpected end of file" } }

/-! ## `fromReadableSize.cpp` -/

/-- The table `scale_factors` of `fromReadableSize.cpp`, lines 13-22, in the
order of the source; the products are written as the source writes them. -/
def scale_factors : List (String × Nat) :=
  [("b", 1),
   ("kib", 1024),
   ("mib", 1024 * 1024),
   ("gib", 1024 * 1024 * 1024),
   ("tib", 1024 * 1024 * 1024 * 1024),
   ("pib", 1024 * 1024 * 1024 * 1024 * 1024),
   ("eib", 1024 * 1024 * 1024 * 1024 * 1024 * 1024)]

/-- Lines 26-29: `Impl::getScaleFactors` returns the table. -/
def Impl.getScaleFactors : List (String × Nat) := scale_factors

/-- The factor that the table gives for a unit, if the unit is a key. -/
def scaleFactor (unit : String) : Option Nat :=
  (Impl.getScaleFactors.find? fun entry => entry.1 == unit).map Prod.snd

/-! # Theorems -/

namespace MergeTreeReaderStream

/-! ## The resolver -/

theorem sizeSub_of_le {a b : Nat} (hab : b ≤ a) (ha : a < 2 ^ 64) : sizeSub a b = a - b := by
  unfold sizeSub
  have hb : b % 2 ^ 64 = b := Nat.mod_eq_of_lt (by omega)
  rw [hb]
  omega

theorem getMark_of_lt (s : MergeTreeReaderStream) (hlen : s.MarksLoaded) {i : Nat}
    (hi : i < s.marks_count) :
    ∃ m, s.marks_loader.getMark i = some m ∧ m ∈ s.marks_loader.marks ∧
      s.physicalOffset i = m.offset_in_compressed_file ∧
      s.inBlockOffset i = m.offset_in_decompressed_block := by
  have h : i < s.marks_loader.marks.length := by rw [hlen]; exact hi
  refine ⟨s.marks_loader.marks[i], ?_, List.getElem_mem _, ?_, ?_⟩
  · simp [MergeTreeMarksLoader.getMark, h]
  · simp [physicalOffset, MergeTreeMarksLoader.getMark, h]
  · simp [inBlockOffset, MergeTreeMarksLoader.getMark, h]

theorem getMark_eq (s : MergeTreeReaderStream) (hlen : s.MarksLoaded) {i : Nat}
    (hi : i < s.marks_count) :
    s.marks_loader.getMark i = some ⟨s.physicalOffset i, s.inBlockOffset i⟩ := by
  obtain ⟨m, h1, _, h2, h3⟩ := s.getMark_of_lt hlen hi
  rw [h1, h2, h3]

theorem physicalOffset_mono (s : MergeTreeReaderStream) (hlen : s.MarksLoaded)
    (hmono : s.NonDecreasing) {i j : Nat} (hij : i ≤ j) (hj : j < s.marks_count) :
    s.physicalOffset i ≤ s.physicalOffset j := by
  rcases Nat.eq_or_lt_of_le hij with rfl | hlt
  · exact Nat.le_refl _
  · have hj' : j < s.marks_loader.marks.length := by rw [hlen]; exact hj
    have hi' : i < s.marks_loader.marks.length := by omega
    have h := (List.pairwise_iff_getElem.mp hmono) i j (by simpa using hi') (by simpa using hj') hlt
    simpa [physicalOffset, MergeTreeMarksLoader.getMark, hi', hj'] using h

theorem physicalOffset_lt_size (s : MergeTreeReaderStream) (hlen : s.MarksLoaded)
    (hrange : s.InSizeRange) {i : Nat} (hi : i < s.marks_count) :
    s.physicalOffset i < 2 ^ 64 := by
  obtain ⟨m, _, hm, h2, _⟩ := s.getMark_of_lt hlen hi
  rw [h2]; exact (hrange.2 m hm).1

theorem physicalOffset_le_file_size (s : MergeTreeReaderStream) (hlen : s.MarksLoaded)
    (hfile : s.WithinFile) {i : Nat} (hi : i < s.marks_count) :
    s.physicalOffset i ≤ s.file_size := by
  obtain ⟨m, _, hm, h2, _⟩ := s.getMark_of_lt hlen hi
  rw [h2]; exact hfile m hm

theorem markOffsetLess_eq (s : MergeTreeReaderStream) (hlen : s.MarksLoaded) {i j : Nat}
    (hi : i < s.marks_count) (hj : j < s.marks_count) :
    s.markOffsetLess i j = some (decide (s.physicalOffset i < s.physicalOffset j)) := by
  simp [markOffsetLess, s.getMark_eq hlen hi, s.getMark_eq hlen hj]

/-- The loop of `upper_bound` returns when it has at least as many rounds as
indices and every comparison it makes is defined. The index it returns is in
the range or at its end, the comparison holds at it unless it is the end, and
the comparison fails just before it unless it is the start. -/
theorem upper_bound_returns (comp : Nat → Nat → Option Bool) (val : Nat) (p : Nat → Bool) :
    ∀ (rounds first len : Nat), len ≤ rounds →
      (∀ i, first ≤ i → i < first + len → comp val i = some (p i)) →
      ∃ k, upper_bound comp val rounds first len = some k ∧ first ≤ k ∧ k ≤ first + len ∧
        (k = first + len ∨ p k = true) ∧ (k = first ∨ p (k - 1) = false) := by
  intro rounds
  induction rounds with
  | zero =>
    intro first len hlen _
    have : len = 0 := by omega
    subst this
    exact ⟨first, by simp [upper_bound], Nat.le_refl _, Nat.le_refl _, Or.inl rfl, Or.inl rfl⟩
  | succ n ih =>
    intro first len hlen hcomp
    by_cases h0 : len = 0
    · subst h0
      exact ⟨first, by simp [upper_bound], Nat.le_refl _, Nat.le_refl _, Or.inl rfl, Or.inl rfl⟩
    · have hmid : comp val (first + len / 2) = some (p (first + len / 2)) :=
        hcomp _ (by omega) (by omega)
      cases hp : p (first + len / 2) with
      | true =>
        obtain ⟨k, hk, h1, h2, h3, h4⟩ := ih first (len / 2) (by omega)
          (fun i hi1 hi2 => hcomp i hi1 (by omega))
        refine ⟨k, ?_, h1, by omega, ?_, h4⟩
        · simp [upper_bound, h0, hmid, hp, hk]
        · rcases h3 with h3 | h3
          · right; rw [h3]; exact hp
          · right; exact h3
      | false =>
        obtain ⟨k, hk, h1, h2, h3, h4⟩ := ih (first + len / 2 + 1) (len - len / 2 - 1) (by omega)
          (fun i hi1 hi2 => hcomp i (by omega) (by omega))
        refine ⟨k, ?_, by omega, by omega, ?_, ?_⟩
        · simp [upper_bound, h0, hmid, hp, hk]
        · rcases h3 with h3 | h3
          · left; omega
          · right; exact h3
        · rcases h4 with h4 | h4
          · right; rw [h4]; simpa using hp
          · right; exact h4

theorem resultRightMark_not_extended (s : MergeTreeReaderStream) (hlen : s.MarksLoaded)
    (right_mark : Nat) (h : ¬ (right_mark < s.marks_count ∧ 0 < s.inBlockOffset right_mark)) :
    s.resultRightMark right_mark = some right_mark := by
  unfold resultRightMark
  by_cases hr : right_mark < s.marks_count
  · have hz : ¬ 0 < s.inBlockOffset right_mark := fun h0 => h ⟨hr, h0⟩
    simp [hr, s.getMark_eq hlen hr, hz]
  · simp [hr]

theorem resultRightMark_extended (s : MergeTreeReaderStream) (hlen : s.MarksLoaded)
    {right_mark : Nat} (hr : right_mark < s.marks_count) (hin : 0 < s.inBlockOffset right_mark) :
    ∃ k, s.resultRightMark right_mark = some k ∧ right_mark < k ∧ k ≤ s.marks_count ∧
      (k = s.marks_count ∨ s.physicalOffset right_mark < s.physicalOffset k) ∧
      ¬ s.physicalOffset right_mark < s.physicalOffset (k - 1) := by
  obtain ⟨k, hk, h1, h2, h3, h4⟩ :=
    upper_bound_returns s.markOffsetLess right_mark
      (fun i => decide (s.physicalOffset right_mark < s.physicalOffset i))
      (s.marks_count - right_mark) right_mark (s.marks_count - right_mark) (Nat.le_refl _)
      (fun i _ hi2 => s.markOffsetLess_eq hlen hr (by omega))
  have hend : right_mark + (s.marks_count - right_mark) = s.marks_count := by omega
  rw [hend] at h2 h3
  have hne : k ≠ right_mark := by
    intro hkr
    rcases h3 with h3 | h3
    · omega
    · rw [hkr] at h3; simp at h3
  have h4' : ¬ s.physicalOffset right_mark < s.physicalOffset (k - 1) := by
    rcases h4 with h4 | h4
    · exact absurd h4 hne
    · simpa using h4
  refine ⟨k, ?_, by omega, h2, ?_, h4'⟩
  · unfold resultRightMark
    simp [hr, s.getMark_eq hlen hr, hin, hk]
    exact fun h => h.symm
  · rcases h3 with h3 | h3
    · exact Or.inl h3
    · right; simpa using h3

theorem scanForDifferentOffset_some (s : MergeTreeReaderStream) (right_mark : Nat) :
    ∀ (n k j : Nat), s.scanForDifferentOffset right_mark n k = some j →
      k ≤ j ∧ j < k + n ∧ s.physicalOffset j ≠ s.physicalOffset right_mark ∧
        ∀ i, k ≤ i → i < j → s.physicalOffset i = s.physicalOffset right_mark := by
  intro n
  induction n with
  | zero => intro k j h; simp [scanForDifferentOffset] at h
  | succ n ih =>
    intro k j h
    unfold scanForDifferentOffset at h
    by_cases hk : s.physicalOffset k ≠ s.physicalOffset right_mark
    · rw [if_pos hk] at h
      have hj : k = j := by simpa using h
      subst hj
      exact ⟨Nat.le_refl _, by omega, hk, fun i h1 h2 => by omega⟩
    · rw [if_neg hk] at h
      obtain ⟨h1, h2, h3, h4⟩ := ih (k + 1) j h
      refine ⟨by omega, by omega, h3, fun i hi1 hi2 => ?_⟩
      rcases Nat.eq_or_lt_of_le hi1 with rfl | hlt
      · simpa using hk
      · exact h4 i (by omega) hi2

theorem scanForDifferentOffset_none (s : MergeTreeReaderStream) (right_mark : Nat) :
    ∀ (n k : Nat), s.scanForDifferentOffset right_mark n k = none →
      ∀ i, k ≤ i → i < k + n → s.physicalOffset i = s.physicalOffset right_mark := by
  intro n
  induction n with
  | zero => intro k _ i h1 h2; omega
  | succ n ih =>
    intro k h i hi1 hi2
    unfold scanForDifferentOffset at h
    by_cases hk : s.physicalOffset k ≠ s.physicalOffset right_mark
    · rw [if_pos hk] at h; simp at h
    · rw [if_neg hk] at h
      rcases Nat.eq_or_lt_of_le hi1 with rfl | hlt
      · simpa using hk
      · exact ih (k + 1) h i (by omega) (by omega)

/-- On non-decreasing offsets the binary search stops at the first mark whose
offset differs from that of `right_mark`. -/
theorem resultRightMark_of_first_different (s : MergeTreeReaderStream) (hlen : s.MarksLoaded)
    (hmono : s.NonDecreasing) {right_mark k : Nat} (hr : right_mark < s.marks_count)
    (hin : 0 < s.inBlockOffset right_mark) (hrk : right_mark ≤ k) (hk : k < s.marks_count)
    (hdiff : s.physicalOffset k ≠ s.physicalOffset right_mark)
    (hleast : ∀ j, right_mark ≤ j → j < k → s.physicalOffset j = s.physicalOffset right_mark) :
    s.resultRightMark right_mark = some k := by
  obtain ⟨k', hk', h1, h2, h3, h4⟩ := s.resultRightMark_extended hlen hr hin
  have hkk : k' = k := by
    rcases Nat.lt_trichotomy k' k with hlt | heq | hgt
    · have e := hleast k' (by omega) hlt
      rcases h3 with h3 | h3 <;> omega
    · exact heq
    · have m1 := s.physicalOffset_mono hlen hmono hrk hk
      have m2 := s.physicalOffset_mono hlen hmono (show k ≤ k' - 1 by omega) (by omega)
      omega
  rw [hk', hkk]

/-- On non-decreasing offsets the binary search runs to `marks_count` when no
mark from `right_mark` on has a different offset. -/
theorem resultRightMark_of_none_different (s : MergeTreeReaderStream) (hlen : s.MarksLoaded)
    {right_mark : Nat} (hr : right_mark < s.marks_count)
    (hin : 0 < s.inBlockOffset right_mark)
    (hall : ∀ j, right_mark ≤ j → j < s.marks_count →
      s.physicalOffset j = s.physicalOffset right_mark) :
    s.resultRightMark right_mark = some s.marks_count := by
  obtain ⟨k', hk', h1, h2, h3, _⟩ := s.resultRightMark_extended hlen hr hin
  rcases h3 with h3 | h3
  · rw [hk', h3]
  · rcases Nat.eq_or_lt_of_le h2 with heq | hlt
    · rw [hk', heq]
    · have := hall k' (by omega) hlt
      omega

theorem resultRightMark_eq_spec (s : MergeTreeReaderStream) (hlen : s.MarksLoaded)
    (hmono : s.NonDecreasing) {right_mark : Nat} (hr : right_mark < s.marks_count)
    (hin : 0 < s.inBlockOffset right_mark) :
    s.resultRightMark right_mark = some (s.specResultRightMark right_mark) := by
  unfold specResultRightMark
  cases hscan : s.scanForDifferentOffset right_mark (s.marks_count - right_mark) right_mark with
  | none =>
    have h := s.scanForDifferentOffset_none right_mark _ _ hscan
    show s.resultRightMark right_mark = some s.marks_count
    exact s.resultRightMark_of_none_different hlen hr hin (fun j h1 h2 => h j h1 (by omega))
  | some k =>
    obtain ⟨h1, h2, h3, h4⟩ := s.scanForDifferentOffset_some right_mark _ _ _ hscan
    show s.resultRightMark right_mark = some k
    exact s.resultRightMark_of_first_different hlen hmono hr hin h1 (by omega) h3 h4

/-- The result when the extended right mark is at or past `marks_count`. -/
theorem getRightOffsetAndBytesRange_of_result_ge (s : MergeTreeReaderStream)
    (hlen : s.MarksLoaded) (left_mark : Nat) {right_mark k : Nat}
    (hres : s.resultRightMark right_mark = some k) (hk : s.marks_count ≤ k) :
    s.getRightOffsetAndBytesRange left_mark right_mark =
      some (s.file_size, sizeSub s.file_size (s.leftOffset left_mark)) := by
  unfold getRightOffsetAndBytesRange useFileSize leftOffset
  by_cases hl : left_mark < s.marks_count
  · simp [hres, hk, hl, s.getMark_eq hlen hl]
  · simp [hres, hk, hl]

/-- The result when the extended right mark is a mark of the array. -/
theorem getRightOffsetAndBytesRange_of_result_lt (s : MergeTreeReaderStream)
    (hlen : s.MarksLoaded) {left_mark right_mark k : Nat}
    (hres : s.resultRightMark right_mark = some k) (hk : k < s.marks_count)
    (hl : left_mark < s.marks_count) (hr : right_mark < s.marks_count) :
    s.getRightOffsetAndBytesRange left_mark right_mark =
      if k + 1 = s.marks_count ∧ s.physicalOffset k = s.physicalOffset right_mark then
        some (s.file_size, sizeSub s.file_size (s.physicalOffset left_mark))
      else some (s.physicalOffset k, sizeSub (s.physicalOffset k) (s.physicalOffset left_mark)) := by
  unfold getRightOffsetAndBytesRange useFileSize
  have hk' : ¬ s.marks_count ≤ k := by omega
  by_cases h1 : k + 1 = s.marks_count
  · by_cases h2 : s.physicalOffset k = s.physicalOffset right_mark
    · simp [hres, hk', h1, h2, hl, s.getMark_eq hlen hl, s.getMark_eq hlen hr, s.getMark_eq hlen hk]
    · simp [hres, hk', h1, h2, hl, s.getMark_eq hlen hl, s.getMark_eq hlen hr, s.getMark_eq hlen hk]
  · simp [hres, hk', h1, hl, s.getMark_eq hlen hl, s.getMark_eq hlen hr, s.getMark_eq hlen hk]

/-- C1: on non-decreasing physical offsets, for `left_mark <= right_mark <
marks_count` with a nonzero in-block offset at `right_mark`, the binary search
of the code finds the result of the specification's forward scan; when `k` is
the least index from `right_mark` on whose physical offset differs from that
of `right_mark`, the resolver returns the offset of `k` and, as span, that
offset minus the offset of `left_mark`; when there is no such index, it returns
`file_size` as right offset. -/
theorem getRightOffsetAndBytesRange_inside_block (s : MergeTreeReaderStream)
    (left_mark right_mark : Nat) (hlen : s.MarksLoaded) (hrange : s.InSizeRange)
    (hmono : s.NonDecreasing) (hlr : left_mark ≤ right_mark) (hr : right_mark < s.marks_count)
    (hin : 0 < s.inBlockOffset right_mark) :
    s.resultRightMark right_mark = some (s.specResultRightMark right_mark) ∧
    (∀ k, right_mark ≤ k → k < s.marks_count →
      s.physicalOffset k ≠ s.physicalOffset right_mark →
      (∀ j, right_mark ≤ j → j < k → s.physicalOffset j = s.physicalOffset right_mark) →
      s.getRightOffsetAndBytesRange left_mark right_mark =
        some (s.physicalOffset k, s.physicalOffset k - s.physicalOffset left_mark)) ∧
    ((∀ j, right_mark ≤ j → j < s.marks_count →
        s.physicalOffset j = s.physicalOffset right_mark) →
      s.getRightOffsetAndBytesRange left_mark right_mark =
        some (s.file_size, sizeSub s.file_size (s.physicalOffset left_mark))) := by
  refine ⟨s.resultRightMark_eq_spec hlen hmono hr hin, ?_, ?_⟩
  · intro k hrk hk hdiff hleast
    have hres := s.resultRightMark_of_first_different hlen hmono hr hin hrk hk hdiff hleast
    have hl : left_mark < s.marks_count := by omega
    rw [s.getRightOffsetAndBytesRange_of_result_lt hlen hres hk hl hr]
    have hcond : ¬ (k + 1 = s.marks_count ∧ s.physicalOffset k = s.physicalOffset right_mark) :=
      fun h => hdiff h.2
    rw [if_neg hcond]
    have m1 := s.physicalOffset_mono hlen hmono hlr hr
    have m2 := s.physicalOffset_mono hlen hmono hrk hk
    rw [sizeSub_of_le (by omega) (s.physicalOffset_lt_size hlen hrange hk)]
  · intro hall
    have hres := s.resultRightMark_of_none_different hlen hr hin hall
    have hl : left_mark < s.marks_count := by omega
    rw [s.getRightOffsetAndBytesRange_of_result_ge hlen left_mark hres (Nat.le_refl _)]
    simp [leftOffset, hl]

/-- The theorem of C1 at `sharedBlockStream`, range `(1, 2)`: mark 4 is the
first mark after mark 2 with another offset. -/
theorem getRightOffsetAndBytesRange_inside_block_witness :
    sharedBlockStream.MarksLoaded ∧ sharedBlockStream.InSizeRange ∧
      sharedBlockStream.NonDecreasing ∧ 0 < sharedBlockStream.inBlockOffset 2 ∧
      sharedBlockStream.specResultRightMark 2 = 4 ∧
      sharedBlockStream.getRightOffsetAndBytesRange 1 2 = some (300, 200) :=
  ⟨by decide, by decide, by decide, by decide, by decide,
    (getRightOffsetAndBytesRange_inside_block sharedBlockStream 1 2 (by decide) (by decide)
      (by decide) (by decide) (by decide) (by decide)).2.1 4 (by decide) (by decide) (by decide)
      (by intro j h1 h2; interval_cases j <;> rfl)⟩

/-- C2, as stated, fails: `blockStartStream` has ten marks, a file of 500
bytes, non-decreasing offsets and marks 0 to 4 at 0, 100, 100, 100, 300, and
the resolver returns `(100, 0)` for the range `(1, 2)`, because mark 2 is at
the start of its block. -/
theorem getRightOffsetAndBytesRange_shared_block_needs_inside :
    blockStartStream.MarksLoaded ∧ blockStartStream.marks_count = 10 ∧
      blockStartStream.file_size = 500 ∧ blockStartStream.NonDecreasing ∧
      blockStartStream.physicalOffset 0 = 0 ∧ blockStartStream.physicalOffset 1 = 100 ∧
      blockStartStream.physicalOffset 2 = 100 ∧ blockStartStream.physicalOffset 3 = 100 ∧
      blockStartStream.physicalOffset 4 = 300 ∧
      blockStartStream.getRightOffsetAndBytesRange 1 2 = some (100, 0) ∧
      blockStartStream.getRightOffsetAndBytesRange 1 2 ≠ some (300, 200) := by
  decide

/-- C2, amended: in a stream with ten marks, a file of 500 bytes and
non-decreasing offsets in which marks 0 to 4 are at 0, 100, 100, 100, 300 and
mark 2 has a nonzero in-block offset, the resolver returns `(300, 200)` for the
range `(1, 2)`. -/
theorem getRightOffsetAndBytesRange_shared_block (s : MergeTreeReaderStream)
    (hlen : s.MarksLoaded) (hcount : s.marks_count = 10) (_hsize : s.file_size = 500)
    (hmono : s.NonDecreasing)
    (_h0 : s.physicalOffset 0 = 0) (h1 : s.physicalOffset 1 = 100)
    (h2 : s.physicalOffset 2 = 100) (h3 : s.physicalOffset 3 = 100)
    (h4 : s.physicalOffset 4 = 300) (hin : 0 < s.inBlockOffset 2) :
    s.getRightOffsetAndBytesRange 1 2 = some (300, 200) := by
  have hr : 2 < s.marks_count := by omega
  have hk : 4 < s.marks_count := by omega
  have hl : 1 < s.marks_count := by omega
  have hres : s.resultRightMark 2 = some 4 :=
    s.resultRightMark_of_first_different hlen hmono hr hin (by omega) hk (by omega)
      (by intro j hj1 hj2; interval_cases j <;> omega)
  rw [s.getRightOffsetAndBytesRange_of_result_lt hlen hres hk hl hr]
  have hcond : ¬ (4 + 1 = s.marks_count ∧ s.physicalOffset 4 = s.physicalOffset 2) := by omega
  rw [if_neg hcond, h4, h1]
  rfl

/-- The theorem of C2 at `sharedBlockStream`. -/
theorem getRightOffsetAndBytesRange_shared_block_witness :
    sharedBlockStream.MarksLoaded ∧ sharedBlockStream.NonDecreasing ∧
      0 < sharedBlockStream.inBlockOffset 2 ∧
      sharedBlockStream.getRightOffsetAndBytesRange 1 2 = some (300, 200) :=
  ⟨by decide, by decide, by decide,
    getRightOffsetAndBytesRange_shared_block sharedBlockStream (by decide) (by decide)
      (by decide) (by decide) (by decide) (by decide) (by decide) (by decide) (by decide)
      (by decide)⟩

/-- C3, as stated, fails: in `singleBlockStream` the last mark has the physical
offset of mark 0, and the resolver returns the offset of mark 0, not the file
size, for the range `(0, 0)`, because mark 0 is at the start of its block and
is not the last mark. -/
theorem getRightOffsetAndBytesRange_tail_needs_inside_or_last :
    singleBlockStream.MarksLoaded ∧ singleBlockStream.NonDecreasing ∧
      0 < singleBlockStream.marks_count ∧
      singleBlockStream.physicalOffset (singleBlockStream.marks_count - 1) =
        singleBlockStream.physicalOffset 0 ∧
      singleBlockStream.file_size = 500 ∧
      singleBlockStream.getRightOffsetAndBytesRange 0 0 = some (100, 0) := by
  decide

/-- C3, amended: on non-decreasing physical offsets, for `left_mark <=
right_mark < marks_count`, if the last mark has the physical offset of the mark
at `right_mark`, and the mark at `right_mark` has a nonzero in-block offset or
is itself the last mark, then the resolver returns `file_size` as right
offset. -/
theorem getRightOffsetAndBytesRange_tail_collapse (s : MergeTreeReaderStream)
    (left_mark right_mark : Nat) (hlen : s.MarksLoaded) (hmono : s.NonDecreasing)
    (hlr : left_mark ≤ right_mark) (hr : right_mark < s.marks_count)
    (htail : s.physicalOffset (s.marks_count - 1) = s.physicalOffset right_mark)
    (hcase : 0 < s.inBlockOffset right_mark ∨ right_mark + 1 = s.marks_count) :
    s.getRightOffsetAndBytesRange left_mark right_mark =
      some (s.file_size, sizeSub s.file_size (s.physicalOffset left_mark)) := by
  have hl : left_mark < s.marks_count := by omega
  by_cases hin : 0 < s.inBlockOffset right_mark
  · have hall : ∀ j, right_mark ≤ j → j < s.marks_count →
        s.physicalOffset j = s.physicalOffset right_mark := by
      intro j hj1 hj2
      have m1 := s.physicalOffset_mono hlen hmono hj1 hj2
      have m2 := s.physicalOffset_mono hlen hmono (show j ≤ s.marks_count - 1 by omega)
        (by omega)
      omega
    have hres := s.resultRightMark_of_none_different hlen hr hin hall
    rw [s.getRightOffsetAndBytesRange_of_result_ge hlen left_mark hres (Nat.le_refl _)]
    simp [leftOffset, hl]
  · have hlast : right_mark + 1 = s.marks_count := by
      rcases hcase with h | h
      · exact absurd h hin
      · exact h
    have hres := s.resultRightMark_not_extended hlen right_mark (fun h => hin h.2)
    rw [s.getRightOffsetAndBytesRange_of_result_lt hlen hres hr hl hr]
    simp [hlast]

/-- The theorem of C3 at `sharedBlockStream`, range `(7, 9)`: mark 9 is the last
mark and lies inside its block. -/
theorem getRightOffsetAndBytesRange_tail_collapse_witness :
    sharedBlockStream.MarksLoaded ∧ sharedBlockStream.NonDecreasing ∧
      sharedBlockStream.physicalOffset (sharedBlockStream.marks_count - 1) =
        sharedBlockStream.physicalOffset 9 ∧
      sharedBlockStream.getRightOffsetAndBytesRange 7 9 = some (500, 100) :=
  ⟨by decide, by decide, by decide,
    getRightOffsetAndBytesRange_tail_collapse sharedBlockStream 7 9 (by decide) (by decide)
      (by decide) (by decide) (by decide) (by decide)⟩

/-- C4: for `left_mark <= right_mark` with `right_mark + 1 < marks_count` and
in-block offset 0 at `right_mark`, the resolver returns the physical offset of
`right_mark` itself as right offset, and as span the `size_t` difference of that
offset and the physical offset of `left_mark`, which is their difference as
numbers when the offsets are non-decreasing. -/
theorem getRightOffsetAndBytesRange_block_boundary (s : MergeTreeReaderStream)
    (left_mark right_mark : Nat) (hlen : s.MarksLoaded) (hlr : left_mark ≤ right_mark)
    (hr : right_mark + 1 < s.marks_count) (hin : s.inBlockOffset right_mark = 0) :
    s.getRightOffsetAndBytesRange left_mark right_mark =
      some (s.physicalOffset right_mark,
        sizeSub (s.physicalOffset right_mark) (s.physicalOffset left_mark)) ∧
    (s.InSizeRange → s.NonDecreasing →
      s.getRightOffsetAndBytesRange left_mark right_mark =
        some (s.physicalOffset right_mark,
          s.physicalOffset right_mark - s.physicalOffset left_mark)) := by
  have hr' : right_mark < s.marks_count := by omega
  have hl : left_mark < s.marks_count := by omega
  have hres := s.resultRightMark_not_extended hlen right_mark (fun h => by omega)
  have hcond : ¬ (right_mark + 1 = s.marks_count ∧
      s.physicalOffset right_mark = s.physicalOffset right_mark) := by omega
  have hmain := s.getRightOffsetAndBytesRange_of_result_lt hlen hres hr' hl hr'
  rw [if_neg hcond] at hmain
  refine ⟨hmain, fun hrange hmono => ?_⟩
  rw [hmain, sizeSub_of_le (s.physicalOffset_mono hlen hmono hlr hr')
    (s.physicalOffset_lt_size hlen hrange hr')]

/-- The theorem of C4 at `blockStartStream`, range `(1, 4)`. -/
theorem getRightOffsetAndBytesRange_block_boundary_witness :
    blockStartStream.MarksLoaded ∧ blockStartStream.inBlockOffset 4 = 0 ∧
      blockStartStream.getRightOffsetAndBytesRange 1 4 = some (300, 200) :=
  ⟨by decide, by decide,
    (getRightOffsetAndBytesRange_block_boundary blockStartStream 1 4 (by decide) (by decide)
      (by decide) (by decide)).1⟩

/-- C5: for `right_mark >= marks_count` and every `left_mark` the resolver
returns `file_size` as right offset and, as span, the `size_t` difference of
`file_size` and the left physical offset, which is the offset of `left_mark`
when `left_mark < marks_count` and `0` otherwise; the span is their difference
as numbers when no mark lies beyond the end of the file. -/
theorem getRightOffsetAndBytesRange_to_end_of_file (s : MergeTreeReaderStream)
    (left_mark right_mark : Nat) (hlen : s.MarksLoaded) (hr : s.marks_count ≤ right_mark) :
    s.getRightOffsetAndBytesRange left_mark right_mark =
      some (s.file_size,
        sizeSub s.file_size
          (if left_mark < s.marks_count then s.physicalOffset left_mark else 0)) ∧
    (s.InSizeRange → s.WithinFile →
      s.getRightOffsetAndBytesRange left_mark right_mark =
        some (s.file_size,
          s.file_size - (if left_mark < s.marks_count then s.physicalOffset left_mark else 0))) := by
  have hres := s.resultRightMark_not_extended hlen right_mark (fun h => by omega)
  have hmain := s.getRightOffsetAndBytesRange_of_result_ge hlen left_mark hres hr
  unfold leftOffset at hmain
  refine ⟨hmain, fun hrange hfile => ?_⟩
  rw [hmain]
  by_cases hl : left_mark < s.marks_count
  · rw [if_pos hl, sizeSub_of_le (s.physicalOffset_le_file_size hlen hfile hl) hrange.1]
  · rw [if_neg hl, sizeSub_of_le (Nat.zero_le _) hrange.1]

/-- The theorem of C5 at `endOfFileStream`: `marks_count = 10`, `file_size =
1000`, mark 8 at offset 900, and the range `(8, 10)` resolves to `(1000, 100)`. -/
theorem getRightOffsetAndBytesRange_to_end_of_file_witness :
    endOfFileStream.MarksLoaded ∧ endOfFileStream.marks_count = 10 ∧
      endOfFileStream.file_size = 1000 ∧ endOfFileStream.physicalOffset 8 = 900 ∧
      endOfFileStream.getRightOffsetAndBytesRange 8 10 = some (1000, 100) :=
  ⟨by decide, by decide, by decide, by decide,
    (getRightOffsetAndBytesRange_to_end_of_file endOfFileStream 8 10 (by decide) (by decide)).1⟩

/-- For a range `left_mark <= right_mark <= marks_count` over non-decreasing
offsets within the file, the resolver returns; its right offset is at most the
file size and at least the offset of `right_mark`, and it is the file size when
`right_mark = marks_count`. -/
theorem getRightOffsetAndBytesRange_bounds (s : MergeTreeReaderStream)
    (left_mark right_mark : Nat) (hlen : s.MarksLoaded) (hmono : s.NonDecreasing)
    (hfile : s.WithinFile) (hlr : left_mark ≤ right_mark) (hr : right_mark ≤ s.marks_count) :
    ∃ right_offset,
      s.getRightOffsetAndBytesRange left_mark right_mark =
        some (right_offset, sizeSub right_offset (s.leftOffset left_mark)) ∧
      right_offset ≤ s.file_size ∧
      (right_mark < s.marks_count → s.physicalOffset right_mark ≤ right_offset) ∧
      (right_mark = s.marks_count → right_offset = s.file_size) := by
  rcases Nat.eq_or_lt_of_le hr with heq | hlt
  · have hres := s.resultRightMark_not_extended hlen right_mark (fun h => by omega)
    exact ⟨s.file_size,
      s.getRightOffsetAndBytesRange_of_result_ge hlen left_mark hres (by omega),
      Nat.le_refl _, fun h => by omega, fun _ => rfl⟩
  · have hl : left_mark < s.marks_count := by omega
    have hlo : s.leftOffset left_mark = s.physicalOffset left_mark := by simp [leftOffset, hl]
    have hrf := s.physicalOffset_le_file_size hlen hfile hlt
    have key : ∀ k, s.resultRightMark right_mark = some k → right_mark ≤ k →
        k ≤ s.marks_count →
        ∃ right_offset,
          s.getRightOffsetAndBytesRange left_mark right_mark =
            some (right_offset, sizeSub right_offset (s.leftOffset left_mark)) ∧
          right_offset ≤ s.file_size ∧
          (right_mark < s.marks_count → s.physicalOffset right_mark ≤ right_offset) ∧
          (right_mark = s.marks_count → right_offset = s.file_size) := by
      intro k hres hrk hk
      rcases Nat.eq_or_lt_of_le hk with hkeq | hklt
      · exact ⟨s.file_size,
          s.getRightOffsetAndBytesRange_of_result_ge hlen left_mark hres (by omega),
          Nat.le_refl _, fun _ => hrf, fun _ => rfl⟩
      · have hmain := s.getRightOffsetAndBytesRange_of_result_lt hlen hres hklt hl hlt
        by_cases hcond : k + 1 = s.marks_count ∧
            s.physicalOffset k = s.physicalOffset right_mark
        · rw [if_pos hcond] at hmain
          exact ⟨s.file_size, by rw [hmain, hlo], Nat.le_refl _, fun _ => hrf, fun _ => rfl⟩
        · rw [if_neg hcond] at hmain
          exact ⟨s.physicalOffset k, by rw [hmain, hlo],
            s.physicalOffset_le_file_size hlen hfile hklt,
            fun _ => s.physicalOffset_mono hlen hmono hrk hklt, fun h => by omega⟩
    by_cases hin : 0 < s.inBlockOffset right_mark
    · obtain ⟨k, hk, h1, h2, _, _⟩ := s.resultRightMark_extended hlen hlt hin
      exact key k hk (by omega) h2
    · exact key right_mark
        (s.resultRightMark_not_extended hlen right_mark (fun h => hin h.2))
        (Nat.le_refl _) hr

theorem leftOffset_le_of_bounds (s : MergeTreeReaderStream) (hlen : s.MarksLoaded)
    (hmono : s.NonDecreasing) (hfile : s.WithinFile) {left_mark right_mark right_offset : Nat}
    (hlr : left_mark ≤ right_mark) (hr : right_mark ≤ s.marks_count)
    (h1 : right_mark < s.marks_count → s.physicalOffset right_mark ≤ right_offset)
    (h2 : right_mark = s.marks_count → right_offset = s.file_size) :
    s.leftOffset left_mark ≤ right_offset := by
  unfold leftOffset
  by_cases hl : left_mark < s.marks_count
  · rw [if_pos hl]
    rcases Nat.eq_or_lt_of_le hr with heq | hlt
    · rw [h2 heq]; exact s.physicalOffset_le_file_size hlen hfile hl
    · exact Nat.le_trans (s.physicalOffset_mono hlen hmono hlr hlt) (h1 hlt)
  · rw [if_neg hl]; exact Nat.zero_le _

/-- C6: on non-decreasing physical offsets that are all at most `file_size`,
for `left_mark <= right_mark <= marks_count`, the resolver returns a pair whose
right offset is at least the left physical offset (the offset of `left_mark`,
or `0` if `left_mark >= marks_count`), and whose span, the result of the
`size_t` subtraction, is the difference of the two as numbers. -/
theorem getRightOffsetAndBytesRange_no_wrap (s : MergeTreeReaderStream)
    (left_mark right_mark : Nat) (hlen : s.MarksLoaded) (hrange : s.InSizeRange)
    (hmono : s.NonDecreasing) (hfile : s.WithinFile) (hlr : left_mark ≤ right_mark)
    (hr : right_mark ≤ s.marks_count) :
    ∃ right_offset mark_range_bytes,
      s.getRightOffsetAndBytesRange left_mark right_mark =
        some (right_offset, mark_range_bytes) ∧
      s.leftOffset left_mark ≤ right_offset ∧
      mark_range_bytes = sizeSub right_offset (s.leftOffset left_mark) ∧
      mark_range_bytes = right_offset - s.leftOffset left_mark := by
  obtain ⟨ro, hres, hle, h1, h2⟩ :=
    s.getRightOffsetAndBytesRange_bounds left_mark right_mark hlen hmono hfile hlr hr
  have hlo := s.leftOffset_le_of_bounds hlen hmono hfile hlr hr h1 h2
  exact ⟨ro, _, hres, hlo, rfl,
    sizeSub_of_le hlo (Nat.lt_of_le_of_lt hle hrange.1)⟩

/-- The theorem of C6 at `sharedBlockStream`, range `(1, 2)`. -/
theorem getRightOffsetAndBytesRange_no_wrap_witness :
    sharedBlockStream.MarksLoaded ∧ sharedBlockStream.InSizeRange ∧
      sharedBlockStream.NonDecreasing ∧ sharedBlockStream.WithinFile ∧
      ∃ right_offset mark_range_bytes,
        sharedBlockStream.getRightOffsetAndBytesRange 1 2 =
          some (right_offset, mark_range_bytes) ∧
        sharedBlockStream.leftOffset 1 ≤ right_offset ∧
        mark_range_bytes = sizeSub right_offset (sharedBlockStream.leftOffset 1) ∧
        mark_range_bytes = right_offset - sharedBlockStream.leftOffset 1 :=
  ⟨by decide, by decide, by decide, by decide,
    getRightOffsetAndBytesRange_no_wrap sharedBlockStream 1 2 (by decide) (by decide)
      (by decide) (by decide) (by decide) (by decide)⟩

/-- C7: on non-decreasing physical offsets that are all at most `file_size`,
for `left_mark <= right_mark <= marks_count`, if the resolver returns a span of
0 then `left_mark = right_mark` or all marks with index in
`[left_mark, right_mark)` have the same physical offset. -/
theorem getRightOffsetAndBytesRange_zero_span (s : MergeTreeReaderStream)
    (left_mark right_mark right_offset : Nat) (hlen : s.MarksLoaded) (hrange : s.InSizeRange)
    (hmono : s.NonDecreasing) (hfile : s.WithinFile) (hlr : left_mark ≤ right_mark)
    (hr : right_mark ≤ s.marks_count)
    (hzero : s.getRightOffsetAndBytesRange left_mark right_mark = some (right_offset, 0)) :
    left_mark = right_mark ∨
      ∀ i j, left_mark ≤ i → i < right_mark → left_mark ≤ j → j < right_mark →
        s.physicalOffset i = s.physicalOffset j := by
  obtain ⟨ro, hres, hle, h1, h2⟩ :=
    s.getRightOffsetAndBytesRange_bounds left_mark right_mark hlen hmono hfile hlr hr
  have hlo := s.leftOffset_le_of_bounds hlen hmono hfile hlr hr h1 h2
  rw [hres] at hzero
  have hpair : ro = right_offset ∧ sizeSub ro (s.leftOffset left_mark) = 0 := by
    simpa using hzero
  have hsub := sizeSub_of_le hlo (Nat.lt_of_le_of_lt hle hrange.1)
  have heq : ro = s.leftOffset left_mark := by omega
  rcases Nat.eq_or_lt_of_le hlr with hlreq | hlrlt
  · exact Or.inl hlreq
  · right
    have hl : left_mark < s.marks_count := by omega
    have hlo' : s.leftOffset left_mark = s.physicalOffset left_mark := by simp [leftOffset, hl]
    have hall : ∀ i, left_mark ≤ i → i < right_mark →
        s.physicalOffset i = s.physicalOffset left_mark := by
      intro i hi1 hi2
      have hi : i < s.marks_count := by omega
      have m1 := s.physicalOffset_mono hlen hmono hi1 hi
      have m2 : s.physicalOffset i ≤ ro := by
        rcases Nat.eq_or_lt_of_le hr with hreq | hrlt
        · rw [h2 hreq]; exact s.physicalOffset_le_file_size hlen hfile hi
        · exact Nat.le_trans (s.physicalOffset_mono hlen hmono (Nat.le_of_lt hi2) hrlt) (h1 hrlt)
      omega
    intro i j hi1 hi2 hj1 hj2
    rw [hall i hi1 hi2, hall j hj1 hj2]

/-- The theorem of C7 at `blockStartStream`, range `(1, 3)`, whose span is 0:
marks 1 and 2 share one physical offset. -/
theorem getRightOffsetAndBytesRange_zero_span_witness :
    blockStartStream.MarksLoaded ∧ blockStartStream.InSizeRange ∧
      blockStartStream.NonDecreasing ∧ blockStartStream.WithinFile ∧
      blockStartStream.getRightOffsetAndBytesRange 1 3 = some (100, 0) ∧
      ((1 : Nat) = 3 ∨
        ∀ i j, 1 ≤ i → i < 3 → 1 ≤ j → j < 3 →
          blockStartStream.physicalOffset i = blockStartStream.physicalOffset j) :=
  ⟨by decide, by decide, by decide, by decide, by decide,
    getRightOffsetAndBytesRange_zero_span blockStartStream 1 3 100 (by decide) (by decide)
      (by decide) (by decide) (by decide) (by decide) (by decide)⟩

/-! ## Seeking and adjusting -/

/-- The resolver reads the marks, `marks_count` and `file_size` only. -/
theorem getRightOffsetAndBytesRange_congr (s t : MergeTreeReaderStream)
    (hm : t.marks_loader = s.marks_loader) (hc : t.marks_count = s.marks_count)
    (hf : t.file_size = s.file_size) (left_mark right_mark : Nat) :
    t.getRightOffsetAndBytesRange left_mark right_mark =
      s.getRightOffsetAndBytesRange left_mark right_mark := by
  have hless : t.markOffsetLess = s.markOffsetLess := by
    funext i j; simp [markOffsetLess, hm]
  simp [getRightOffsetAndBytesRange, resultRightMark, useFileSize, hm, hc, hf, hless]

/-- C8: one step of `adjustForRange(left_mark, right_mark)`, where the resolver
returns the right offset `right_offset`. The call returns. If `right_offset`
exceeds `last_right_offset`, then afterwards `last_right_offset` is
`right_offset`, every populated buffer has received exactly this limit and has
it as its read-until limit, and nothing else has changed. Otherwise the state
is unchanged. After the call, a further call whose resolved right offset is at
most `right_offset` leaves the state, and so the watermark, unchanged. -/
theorem adjustForRange_one_step (s : MergeTreeReaderStream)
    (left_mark right_mark right_offset mark_range_bytes : Nat)
    (hres : s.getRightOffsetAndBytesRange left_mark right_mark =
      some (right_offset, mark_range_bytes)) :
    ∃ s', s.adjustForRange left_mark right_mark = some s' ∧
      (s.last_right_offset < right_offset →
        s'.last_right_offset = right_offset ∧
        s' = { s with
          last_right_offset := right_offset
          cached_buffer := s.cached_buffer.map fun b => b.setReadUntilPosition right_offset
          non_cached_buffer :=
            s.non_cached_buffer.map fun b => b.setReadUntilPosition right_offset } ∧
        ∀ b', (s'.cached_buffer = some b' ∨ s'.non_cached_buffer = some b') →
          b'.read_until_position = some right_offset ∧
          ∃ b, (s.cached_buffer = some b ∨ s.non_cached_buffer = some b) ∧
            b'.read_until_calls = b.read_until_calls ++ [right_offset]) ∧
      (right_offset ≤ s.last_right_offset → s' = s) ∧
      (∀ left_mark₂ right_mark₂ right_offset₂ mark_range_bytes₂,
        s'.getRightOffsetAndBytesRange left_mark₂ right_mark₂ =
          some (right_offset₂, mark_range_bytes₂) →
        right_offset₂ ≤ right_offset →
        s'.adjustForRange left_mark₂ right_mark₂ = some s') := by
  by_cases hgt : right_offset > s.last_right_offset
  · refine ⟨_, by simp only [adjustForRange, hres, if_pos hgt], fun _ => ⟨rfl, rfl, ?_⟩,
      fun hle => absurd hgt (by omega), ?_⟩
    · intro b' hb'
      rcases hb' with hb' | hb'
      · obtain ⟨b, hb, rfl⟩ := Option.map_eq_some'.mp hb'
        exact ⟨rfl, b, Or.inl hb, rfl⟩
      · obtain ⟨b, hb, rfl⟩ := Option.map_eq_some'.mp hb'
        exact ⟨rfl, b, Or.inr hb, rfl⟩
    · intro l2 r2 ro2 bytes2 hres2 hle
      have hno : ¬ ro2 > right_offset := by omega
      simp only [adjustForRange, hres2, if_neg hno]
  · refine ⟨s, by simp only [adjustForRange, hres, if_neg hgt], fun h => absurd h (by omega),
      fun _ => rfl, ?_⟩
    intro l2 r2 ro2 bytes2 hres2 hle
    have hno : ¬ ro2 > s.last_right_offset := by omega
    simp only [adjustForRange, hres2, if_neg hno]

/-- The theorem of C8 at `sharedBlockReader`: the range `(1, 2)` resolves to
the right offset 300, which the call installs as watermark and limit; the later
range `(0, 1)` resolves to 100 and changes nothing. -/
theorem adjustForRange_one_step_witness :
    sharedBlockReader.getRightOffsetAndBytesRange 1 2 = some (300, 200) ∧
      ∃ s', sharedBlockReader.adjustForRange 1 2 = some s' ∧ s'.last_right_offset = 300 ∧
        (∀ b', s'.non_cached_buffer = some b' → b'.read_until_position = some 300) ∧
        s'.adjustForRange 0 1 = some s' := by
  obtain ⟨s', h1, h2, _, h4⟩ :=
    adjustForRange_one_step sharedBlockReader 1 2 300 200 (by decide)
  have h2' := h2 (by decide)
  refine ⟨by decide, s', h1, h2'.1, fun b' hb' => (h2'.2.2 b' (Or.inr hb')).1, ?_⟩
  have hs : s'.getRightOffsetAndBytesRange 0 1 = some (100, 100) := by
    rw [h2'.2.1]; decide
  exact h4 0 1 100 100 hs (by decide)

/-- A seek leaves the limit of the buffer, and the limits it has received,
as they are. -/
theorem seek_limits (ext : External) (b : CompressedReadBuffer) (x y : Nat) :
    (b.seek ext x y).1.read_until_calls = b.read_until_calls ∧
      (b.seek ext x y).1.read_until_position = b.read_until_position := by
  unfold CompressedReadBuffer.seek
  cases ext.seek_outcome b x y <;> exact ⟨rfl, rfl⟩

/-- The `try` block of the two seek operations changes neither the watermark
nor the marks, and every buffer populated afterwards was populated before, with
the same limit and the same limits received. -/
theorem seekBuffers_preserves (ext : External) (s : MergeTreeReaderStream) (x y : Nat) :
    (s.seekBuffers ext x y).state.last_right_offset = s.last_right_offset ∧
    ∀ b', ((s.seekBuffers ext x y).state.cached_buffer = some b' ∨
        (s.seekBuffers ext x y).state.non_cached_buffer = some b') →
      ∃ b, (s.cached_buffer = some b ∨ s.non_cached_buffer = some b) ∧
        b'.read_until_calls = b.read_until_calls ∧
        b'.read_until_position = b.read_until_position := by
  unfold seekBuffers
  cases hc : s.cached_buffer with
  | none =>
    cases hn : s.non_cached_buffer with
    | none => simp [hc, hn]
    | some nb =>
      simp only [hn]
      refine ⟨by first | rfl | trivial, fun b' hb' => ?_⟩
      rcases hb' with hb' | hb'
      · simp [hc] at hb'
      · refine ⟨nb, Or.inr rfl, ?_⟩
        have e : (nb.seek ext x y).1 = b' := by simpa using hb'
        rw [← e]; exact seek_limits ext nb x y
  | some cb =>
    simp only []
    cases ho : (cb.seek ext x y).2 with
    | some e =>
      simp only []
      refine ⟨by first | rfl | trivial, fun b' hb' => ?_⟩
      rcases hb' with hb' | hb'
      · refine ⟨cb, Or.inl rfl, ?_⟩
        have e : (cb.seek ext x y).1 = b' := by simpa using hb'
        rw [← e]; exact seek_limits ext cb x y
      · exact ⟨b', Or.inr (by simpa using hb'), rfl, rfl⟩
    | none =>
      simp only []
      cases hn : s.non_cached_buffer with
      | none =>
        simp only []
        refine ⟨by first | rfl | trivial, fun b' hb' => ?_⟩
        rcases hb' with hb' | hb'
        · refine ⟨cb, Or.inl rfl, ?_⟩
          have e : (cb.seek ext x y).1 = b' := by simpa using hb'
          rw [← e]; exact seek_limits ext cb x y
        · simp [hn] at hb'
      | some nb =>
        simp only []
        refine ⟨by first | rfl | trivial, fun b' hb' => ?_⟩
        rcases hb' with hb' | hb'
        · refine ⟨cb, Or.inl rfl, ?_⟩
          have e : (cb.seek ext x y).1 = b' := by simpa using hb'
          rw [← e]; exact seek_limits ext cb x y
        · refine ⟨nb, Or.inr rfl, ?_⟩
          have e : (nb.seek ext x y).1 = b' := by simpa using hb'
          rw [← e]; exact seek_limits ext nb x y

/-- The state in which `seekToMark` leaves the stream is the one its `try`
block produced. -/
theorem seekToMark_state (ext : External) (s : MergeTreeReaderStream) (index : Nat)
    (o : Outcome) (h : s.seekToMark ext index = some o) :
    ∃ x y, o.state = (s.seekBuffers ext x y).state := by
  unfold seekToMark at h
  cases hm : s.marks_loader.getMark index with
  | none => simp [hm] at h
  | some mark =>
    refine ⟨mark.offset_in_compressed_file, mark.offset_in_decompressed_block, ?_⟩
    simp only [hm] at h
    split at h
    · have e := Option.some.inj h
      rw [← e]
    · split at h
      · have e := Option.some.inj h
        rw [← e]
      · have e := Option.some.inj h
        rw [← e]

/-- The state in which `seekToStart` leaves the stream is the one its `try`
block produced. -/
theorem seekToStart_state (ext : External) (s : MergeTreeReaderStream) :
    (s.seekToStart ext).state = (s.seekBuffers ext 0 0).state := by
  unfold seekToStart
  simp only []
  split
  · rfl
  · split <;> rfl

theorem limitsFollowWatermark_of_seekBuffers (ext : External) (s : MergeTreeReaderStream)
    (x y : Nat) (hinv : s.LimitsFollowWatermark) :
    (s.seekBuffers ext x y).state.LimitsFollowWatermark := by
  obtain ⟨hw, hb⟩ := s.seekBuffers_preserves ext x y
  intro b' hb'
  obtain ⟨b, hbs, e1, e2⟩ := hb b' hb'
  rw [e1, e2, hw]
  exact hinv b hbs

theorem limitsFollowWatermark_of_adjustForRange (s s' : MergeTreeReaderStream)
    (left_mark right_mark : Nat) (hinv : s.LimitsFollowWatermark)
    (h : s.adjustForRange left_mark right_mark = some s') :
    s'.LimitsFollowWatermark ∧ s.last_right_offset ≤ s'.last_right_offset := by
  unfold adjustForRange at h
  cases hres : s.getRightOffsetAndBytesRange left_mark right_mark with
  | none => simp [hres] at h
  | some p =>
    obtain ⟨right_offset, bytes⟩ := p
    simp only [hres] at h
    by_cases hgt : right_offset > s.last_right_offset
    · rw [if_pos hgt] at h
      have e := Option.some.inj h
      subst e
      refine ⟨fun b' hb' => ?_, Nat.le_of_lt hgt⟩
      have hfrom : ∃ b, (s.cached_buffer = some b ∨ s.non_cached_buffer = some b) ∧
          b' = b.setReadUntilPosition right_offset := by
        rcases hb' with hb' | hb'
        · obtain ⟨b, hb, rfl⟩ := Option.map_eq_some'.mp hb'
          exact ⟨b, Or.inl hb, rfl⟩
        · obtain ⟨b, hb, rfl⟩ := Option.map_eq_some'.mp hb'
          exact ⟨b, Or.inr hb, rfl⟩
      obtain ⟨b, hbs, rfl⟩ := hfrom
      obtain ⟨i1, i2, _⟩ := hinv b hbs
      refine ⟨?_, ?_, fun _ => rfl⟩
      · show List.Pairwise (fun x y => x < y) (b.read_until_calls ++ [right_offset])
        rw [List.pairwise_append]
        refine ⟨i1, List.pairwise_singleton _ _, fun x hx y hy => ?_⟩
        have hy' : y = right_offset := by simpa using hy
        have := i2 x hx
        omega
      · intro x hx
        have hx' : x ∈ b.read_until_calls ++ [right_offset] := hx
        show x ≤ right_offset
        rcases List.mem_append.mp hx' with hx1 | hx1
        · have := i2 x hx1; omega
        · have hx2 : x = right_offset := by simpa using hx1
          omega
    · rw [if_neg hgt] at h
      have e := Option.some.inj h
      subst e
      exact ⟨hinv, Nat.le_refl _⟩

theorem limitsFollowWatermark_of_step (ext : External) (s s' : MergeTreeReaderStream)
    (c : Call) (hinv : s.LimitsFollowWatermark) (h : s.step ext c = some s') :
    s'.LimitsFollowWatermark ∧ s.last_right_offset ≤ s'.last_right_offset := by
  cases c with
  | seekToMark index =>
    simp only [step] at h
    obtain ⟨o, ho, rfl⟩ := Option.map_eq_some'.mp h
    obtain ⟨x, y, e⟩ := s.seekToMark_state ext index o ho
    rw [e]
    exact ⟨s.limitsFollowWatermark_of_seekBuffers ext x y hinv,
      Nat.le_of_eq (s.seekBuffers_preserves ext x y).1.symm⟩
  | seekToStart =>
    simp only [step] at h
    have e := Option.some.inj h
    rw [← e, s.seekToStart_state ext]
    exact ⟨s.limitsFollowWatermark_of_seekBuffers ext 0 0 hinv,
      Nat.le_of_eq (s.seekBuffers_preserves ext 0 0).1.symm⟩
  | adjustForRange left_mark right_mark =>
    simp only [step] at h
    exact s.limitsFollowWatermark_of_adjustForRange s' left_mark right_mark hinv h

theorem run_invariant (ext : External) :
    ∀ (calls : List Call) (s : MergeTreeReaderStream), s.LimitsFollowWatermark →
      (∀ t ∈ run ext s calls, t.LimitsFollowWatermark ∧
        s.last_right_offset ≤ t.last_right_offset) ∧
      List.Pairwise (fun a b => a.last_right_offset ≤ b.last_right_offset)
        (run ext s calls) := by
  intro calls
  induction calls with
  | nil => intro s _; simp [run]
  | cons c cs ih =>
    intro s hinv
    cases hstep : s.step ext c with
    | none => simp [run, hstep]
    | some s' =>
      obtain ⟨hinv', hle⟩ := s.limitsFollowWatermark_of_step ext s' c hinv hstep
      obtain ⟨h1, h2⟩ := ih s' hinv'
      simp only [run, hstep]
      refine ⟨fun t ht => ?_, ?_⟩
      · rcases List.mem_cons.mp ht with rfl | ht
        · exact ⟨hinv', hle⟩
        · exact ⟨(h1 t ht).1, Nat.le_trans hle (h1 t ht).2⟩
      · exact List.pairwise_cons.mpr ⟨fun t ht => (h1 t ht).2, h2⟩

/-- A freshly constructed stream has watermark 0 and one buffer, to which no
limit has been pushed. -/
theorem create_fresh ( path_prefix_ data_file_extension_ : String) (marks_count_ : Nat)
    (all_mark_ranges : List MarkRange) (settings : MergeTreeReaderSettings)
    (marks_loader_ : MergeTreeMarksLoader) (uncompressed_cache : Bool) (file_size_ : Nat)
    (profile_callback : Bool) (s : MergeTreeReaderStream)
    (h : create path_prefix_ data_file_extension_ marks_count_ all_mark_ranges settings
      marks_loader_ uncompressed_cache file_size_ profile_callback = some s) :
    s.last_right_offset = 0 ∧
      ∀ b, (s.cached_buffer = some b ∨ s.non_cached_buffer = some b) →
        b.read_until_position = none ∧ b.read_until_calls = [] := by
  unfold create at h
  simp only [] at h
  split at h
  · exact absurd h (by simp)
  · split at h
    · have e := Option.some.inj h
      subst e
      refine ⟨rfl, fun b hb => ?_⟩
      rcases hb with hb | hb
      · have e : openBuffer _ _ _ _ = b := Option.some.inj hb
        rw [← e]; exact ⟨rfl, rfl⟩
      · exact absurd hb (by simp)
    · have e := Option.some.inj h
      subst e
      refine ⟨rfl, fun b hb => ?_⟩
      rcases hb with hb | hb
      · exact absurd hb (by simp)
      · have e : openBuffer _ _ _ _ = b := Option.some.inj hb
        rw [← e]; exact ⟨rfl, rfl⟩

/-- C9: start from a freshly constructed stream, whose watermark
`last_right_offset` is 0 and whose buffer has no limit, and run any finite
sequence of `seekToMark`, `seekToStart` and `adjustForRange` calls with any
arguments. Along the sequence of states the watermark is non-decreasing; in
every state the limits pushed so far to a populated buffer through
`setReadUntilPosition` are strictly increasing, and once a limit has been
pushed the limit of the buffer is the watermark. -/
theorem watermark_monotone_over_calls (ext : External)
    ( path_prefix_ data_file_extension_ : String) (marks_count_ : Nat)
    (all_mark_ranges : List MarkRange) (settings : MergeTreeReaderSettings)
    (marks_loader_ : MergeTreeMarksLoader) (uncompressed_cache : Bool) (file_size_ : Nat)
    (profile_callback : Bool) (s₀ : MergeTreeReaderStream) (calls : List Call)
    (hcreate : create path_prefix_ data_file_extension_ marks_count_ all_mark_ranges settings
      marks_loader_ uncompressed_cache file_size_ profile_callback = some s₀) :
    s₀.last_right_offset = 0 ∧
    (∀ b, (s₀.cached_buffer = some b ∨ s₀.non_cached_buffer = some b) →
      b.read_until_position = none ∧ b.read_until_calls = []) ∧
    List.Pairwise (fun a b => a.last_right_offset ≤ b.last_right_offset)
      (s₀ :: run ext s₀ calls) ∧
    ∀ t ∈ s₀ :: run ext s₀ calls,
      ∀ b, (t.cached_buffer = some b ∨ t.non_cached_buffer = some b) →
        List.Pairwise (fun x y => x < y) b.read_until_calls ∧
        (b.read_until_calls ≠ [] → b.read_until_position = some t.last_right_offset) := by
  obtain ⟨hw, hfresh⟩ := create_fresh path_prefix_ data_file_extension_ marks_count_
    all_mark_ranges settings marks_loader_ uncompressed_cache file_size_ profile_callback s₀
    hcreate
  have hinv : s₀.LimitsFollowWatermark := by
    intro b hb
    obtain ⟨_, hcalls⟩ := hfresh b hb
    rw [hcalls]
    exact ⟨List.Pairwise.nil, fun x hx => absurd hx (List.not_mem_nil x),
      fun h => absurd rfl h⟩
  obtain ⟨h1, h2⟩ := run_invariant ext calls s₀ hinv
  refine ⟨hw, hfresh, List.pairwise_cons.mpr ⟨fun t ht => (h1 t ht).2, h2⟩, ?_⟩
  intro t ht b hb
  have hinvt : t.LimitsFollowWatermark := by
    rcases List.mem_cons.mp ht with rfl | ht
    · exact hinv
    · exact (h1 t ht).1
  exact ⟨(hinvt b hb).1, (hinvt b hb).2.2⟩

/-- The theorem of C9 at the stream constructed over the marks of
`sharedBlockStream` for the ranges `(1, 2)` and `(5, 7)`, with six calls of
which one seek fails: the watermarks after the calls are 300, 300, 300, 300,
300 and 450. -/
theorem watermark_monotone_over_calls_witness :
    create "column" ".bin" 10 [⟨1, 2⟩, ⟨5, 7⟩] {} sharedBlockStream.marks_loader false 500 false
        = some sharedBlockReader ∧
      (run seeksFailPast400 sharedBlockReader
        [Call.adjustForRange 1 2, Call.seekToMark 1, Call.adjustForRange 0 1,
          Call.seekToMark 9, Call.seekToStart, Call.adjustForRange 5 7]).map
        (fun t => t.last_right_offset) = [300, 300, 300, 300, 300, 450] ∧
      List.Pairwise (fun a b => a.last_right_offset ≤ b.last_right_offset)
        (sharedBlockReader :: run seeksFailPast400 sharedBlockReader
          [Call.adjustForRange 1 2, Call.seekToMark 1, Call.adjustForRange 0 1,
            Call.seekToMark 9, Call.seekToStart, Call.adjustForRange 5 7]) :=
  ⟨by decide, by decide,
    (watermark_monotone_over_calls seeksFailPast400 "column" ".bin" 10 [⟨1, 2⟩, ⟨5, 7⟩] {}
      sharedBlockStream.marks_loader false 500 false sharedBlockReader
      [Call.adjustForRange 1 2, Call.seekToMark 1, Call.adjustForRange 0 1,
        Call.seekToMark 9, Call.seekToStart, Call.adjustForRange 5 7] (by decide)).2.2.1⟩

/-- C10: for `index < marks_count`, in a stream whose only populated buffer is
`b`, if the seek of `b` to the two offsets of the mark at `index` succeeds,
then `seekToMark(index)` returns without an exception; afterwards the same
buffer is the only populated one, it has received exactly one more seek, with
the pair (`offset_in_compressed_file`, `offset_in_decompressed_block`) of the
mark, its position is that pair, and its read-until limit, the limits it has
received, `last_right_offset` and the marks are as before. -/
theorem seekToMark_positions_buffer (ext : External) (s : MergeTreeReaderStream) (index : Nat)
    (b : CompressedReadBuffer) (hlen : s.MarksLoaded) (hi : index < s.marks_count)
    (hactive : s.HasOnlyBuffer b)
    (hok : ext.seek_outcome b (s.physicalOffset index) (s.inBlockOffset index) = none) :
    ∃ s' b', s.seekToMark ext index = some { state := s', thrown := none } ∧
      s'.HasOnlyBuffer b' ∧
      (s'.cached_buffer.isSome = s.cached_buffer.isSome) ∧
      b'.seek_calls = b.seek_calls ++ [(s.physicalOffset index, s.inBlockOffset index)] ∧
      b'.position = (s.physicalOffset index, s.inBlockOffset index) ∧
      b'.read_until_position = b.read_until_position ∧
      b'.read_until_calls = b.read_until_calls ∧
      s'.last_right_offset = s.last_right_offset ∧
      s'.marks_loader = s.marks_loader ∧ s'.marks_count = s.marks_count ∧
      s'.file_size = s.file_size := by
  obtain ⟨b', hb'⟩ : ∃ b' : CompressedReadBuffer, b' =
      { b with
        position := (s.physicalOffset index, s.inBlockOffset index)
        seek_calls := b.seek_calls ++ [(s.physicalOffset index, s.inBlockOffset index)] } :=
    ⟨_, rfl⟩
  have hseek : b.seek ext (s.physicalOffset index) (s.inBlockOffset index) = (b', none) := by
    simp [CompressedReadBuffer.seek, hok, hb']
  have hfields : b'.seek_calls =
        b.seek_calls ++ [(s.physicalOffset index, s.inBlockOffset index)] ∧
      b'.position = (s.physicalOffset index, s.inBlockOffset index) ∧
      b'.read_until_position = b.read_until_position ∧
      b'.read_until_calls = b.read_until_calls := by
    rw [hb']; exact ⟨rfl, rfl, rfl, rfl⟩
  obtain ⟨f1, f2, f3, f4⟩ := hfields
  rcases hactive with ⟨hc, hn⟩ | ⟨hc, hn⟩
  · refine ⟨{ s with cached_buffer := some b' }, b', ?_, Or.inl ⟨rfl, hn⟩, ?_,
      f1, f2, f3, f4, rfl, rfl, rfl, rfl⟩
    · simp [seekToMark, s.getMark_eq hlen hi, seekBuffers, hc, hn, hseek]
    · simp [hc]
  · refine ⟨{ s with non_cached_buffer := some b' }, b', ?_, Or.inr ⟨hc, rfl⟩, ?_,
      f1, f2, f3, f4, rfl, rfl, rfl, rfl⟩
    · simp [seekToMark, s.getMark_eq hlen hi, seekBuffers, hc, hn, hseek]
    · simp [hc]

/-- The theorem of C10 at `sharedBlockReader`, mark 3: the buffer is
positioned at `(100, 80)`. -/
theorem seekToMark_positions_buffer_witness :
    sharedBlockReader.MarksLoaded ∧
      ∃ s' b', sharedBlockReader.seekToMark seeksSucceed 3 =
          some { state := s', thrown := none } ∧
        s'.HasOnlyBuffer b' ∧ b'.seek_calls = [(100, 80)] ∧ b'.position = (100, 80) ∧
        b'.read_until_position = none ∧ s'.last_right_offset = 0 := by
  obtain ⟨s', b', h1, h2, _, h4, h5, h6, _, h8, _⟩ :=
    seekToMark_positions_buffer seeksSucceed sharedBlockReader 3
      { read_settings := ReadSettings.adjustBufferSize ReadSettings.default 200
        read_hint := 350
        profile_callback := false
        checksumming := true }
      (by decide) (by decide) (Or.inr ⟨rfl, rfl⟩) rfl
  exact ⟨by decide, s', b', h1, h2, h4, h5, h6, h8⟩

/-! ## Errors of the seek operations -/

theorem seek_thrown (ext : External) (b : CompressedReadBuffer) (x y : Nat) :
    (b.seek ext x y).2 = ext.seek_outcome b x y := by
  unfold CompressedReadBuffer.seek
  cases ext.seek_outcome b x y <;> rfl

theorem seek_calls_after (ext : External) (b : CompressedReadBuffer) (x y : Nat) :
    (b.seek ext x y).1.seek_calls = b.seek_calls ++ [(x, y)] := by
  unfold CompressedReadBuffer.seek
  cases ext.seek_outcome b x y <;> rfl

/-- With one populated buffer the `try` block seeks that buffer and nothing
else, and throws what the seek throws. -/
theorem seekBuffers_of_only (ext : External) (s : MergeTreeReaderStream)
    (b : CompressedReadBuffer) (x y : Nat) (hactive : s.HasOnlyBuffer b) :
    (s.seekBuffers ext x y).thrown = ext.seek_outcome b x y ∧
      (s.seekBuffers ext x y).state.HasOnlyBuffer (b.seek ext x y).1 ∧
      (s.seekBuffers ext x y).state.cached_buffer.isSome = s.cached_buffer.isSome ∧
      (s.seekBuffers ext x y).state.last_right_offset = s.last_right_offset ∧
      (s.seekBuffers ext x y).state.marks_loader = s.marks_loader := by
  have ht := seek_thrown ext b x y
  rcases hactive with ⟨hc, hn⟩ | ⟨hc, hn⟩
  · unfold seekBuffers
    simp only [hc, hn]
    cases ho : (b.seek ext x y).2 with
    | none =>
      rw [ho] at ht
      exact ⟨by simpa using ht, Or.inl ⟨by simp, by simp [hn]⟩, by simp, by simp, by simp⟩
    | some e =>
      rw [ho] at ht
      exact ⟨by simpa using ht, Or.inl ⟨by simp, by simp [hn]⟩, by simp, by simp, by simp⟩
  · unfold seekBuffers
    simp only [hc, hn]
    exact ⟨ht, Or.inr ⟨rfl, rfl⟩, by simp [hc], by simp, by simp⟩

/-- C11: in a stream whose only populated buffer is `b`, let the seek of `b`
to the mark at `index < marks_count` fail with the exception `e`. Then
`seekToMark(index)` lets an exception escape, never none. If the code of `e`
is `ARGUMENT_OUT_OF_BOUND`, the exception that escapes has the code and the
message of `e`, and the context of `e` extended by one entry, which holds the
decimal mark index, the column path and both offsets of the mark. If `e` has
another code, the exception that escapes is `e` itself. -/
theorem seekToMark_error_enrichment (ext : External) (s : MergeTreeReaderStream)
    (index : Nat) (b : CompressedReadBuffer) (e : Exception) (hlen : s.MarksLoaded)
    (hi : index < s.marks_count) (hactive : s.HasOnlyBuffer b)
    (hfail : ext.seek_outcome b (s.physicalOffset index) (s.inBlockOffset index) = some e) :
    ∃ o e', s.seekToMark ext index = some o ∧ o.thrown = some e' ∧
      (e.code = ext.ARGUMENT_OUT_OF_BOUND →
        e'.code = e.code ∧ e'.message = e.message ∧
        e'.context = e.context ++
          ["(while seeking to mark " ++ toString index ++ " of column " ++ s.path_prefix
            ++ "; offsets are: " ++ toString (s.physicalOffset index) ++ " "
            ++ toString (s.inBlockOffset index) ++ ")"]) ∧
      (e.code ≠ ext.ARGUMENT_OUT_OF_BOUND → e' = e) := by
  obtain ⟨hthrown, _⟩ :=
    s.seekBuffers_of_only ext b (s.physicalOffset index) (s.inBlockOffset index) hactive
  rw [hfail] at hthrown
  by_cases hcode : e.code = ext.ARGUMENT_OUT_OF_BOUND
  · refine ⟨{ state := (s.seekBuffers ext (s.physicalOffset index)
          (s.inBlockOffset index)).state
              thrown := some (e.addMessage (s.seekToMarkMessage index
                ⟨s.physicalOffset index, s.inBlockOffset index⟩)) },
      e.addMessage (s.seekToMarkMessage index ⟨s.physicalOffset index, s.inBlockOffset index⟩),
      ?_, rfl, fun _ => ⟨rfl, rfl, rfl⟩, fun h => absurd hcode h⟩
    simp only [seekToMark, s.getMark_eq hlen hi, hthrown, if_pos hcode]
  · refine ⟨{ state := (s.seekBuffers ext (s.physicalOffset index)
          (s.inBlockOffset index)).state
              thrown := some e }, e, ?_, rfl, fun h => absurd h hcode, fun _ => rfl⟩
    simp only [seekToMark, s.getMark_eq hlen hi, hthrown, if_neg hcode]

/-- The theorem of C11 at `sharedBlockReader`, mark 9, whose seek fails with
the out-of-bound error. -/
theorem seekToMark_error_enrichment_witness :
    sharedBlockReader.MarksLoaded ∧
      ∃ o e', sharedBlockReader.seekToMark seeksFailPast400 9 = some o ∧
        o.thrown = some e' ∧ e'.code = 69 ∧
        e'.message = "Seek position is out of bounds" ∧
        e'.context = ["(while seeking to mark 9 of column column; offsets are: 450 5)"] := by
  obtain ⟨o, e', h1, h2, h3, _⟩ :=
    seekToMark_error_enrichment seeksFailPast400 sharedBlockReader 9
      { read_settings := ReadSettings.adjustBufferSize ReadSettings.default 200
        read_hint := 350
        profile_callback := false
        checksumming := true }
      { code := 69, message := "Seek position is out of bounds" }
      (by decide) (by decide) (Or.inr ⟨rfl, rfl⟩) rfl
  obtain ⟨c1, c2, c3⟩ := h3 rfl
  exact ⟨by decide, o, e', h1, h2, c1, c2, by rw [c3]; decide⟩

/-- C13: in a stream whose only populated buffer is `b`, `seekToStart()` seeks
`b` to `(0, 0)`, as `seekToMark` does for a mark with both offsets 0. When
the seek succeeds no exception escapes, the buffer is positioned at `(0, 0)`
and its limit, the watermark and the marks are as before. When the seek fails
with an exception `e` whose code is `ARGUMENT_OUT_OF_BOUND`, the exception that
escapes has the code and message of `e` and one more context entry, which
holds the column path and no mark index; when `e` has another code, `e`
itself escapes. -/
theorem seekToStart_behaviour (ext : External) (s : MergeTreeReaderStream)
    (b : CompressedReadBuffer) (hactive : s.HasOnlyBuffer b) :
    (ext.seek_outcome b 0 0 = none →
      (s.seekToStart ext).thrown = none ∧
      ∃ b', (s.seekToStart ext).state.HasOnlyBuffer b' ∧
        b'.position = (0, 0) ∧ b'.seek_calls = b.seek_calls ++ [(0, 0)] ∧
        b'.read_until_position = b.read_until_position ∧
        b'.read_until_calls = b.read_until_calls ∧
        (s.seekToStart ext).state.cached_buffer.isSome = s.cached_buffer.isSome ∧
        (s.seekToStart ext).state.last_right_offset = s.last_right_offset ∧
        (s.seekToStart ext).state.marks_loader = s.marks_loader) ∧
    (∀ e, ext.seek_outcome b 0 0 = some e →
      (e.code = ext.ARGUMENT_OUT_OF_BOUND →
        ∃ e', (s.seekToStart ext).thrown = some e' ∧ e'.code = e.code ∧
          e'.message = e.message ∧
          e'.context = e.context ++ ["(while seeking to start of column " ++ s.path_prefix ++ ")"]) ∧
      (e.code ≠ ext.ARGUMENT_OUT_OF_BOUND → (s.seekToStart ext).thrown = some e)) ∧
    (∀ index, s.marks_loader.getMark index = some ⟨0, 0⟩ →
      ∃ o, s.seekToMark ext index = some o ∧ o.state = (s.seekToStart ext).state ∧
        (o.thrown = none ↔ (s.seekToStart ext).thrown = none) ∧
        (∀ e, e.code ≠ ext.ARGUMENT_OUT_OF_BOUND →
          (o.thrown = some e ↔ (s.seekToStart ext).thrown = some e))) := by
  obtain ⟨hthrown, honly, hsome, hw, hm⟩ := s.seekBuffers_of_only ext b 0 0 hactive
  refine ⟨fun hok => ?_, fun e hfail => ⟨fun hcode => ?_, fun hcode => ?_⟩, fun index hmark => ?_⟩
  · rw [hok] at hthrown
    have hstate : s.seekToStart ext = s.seekBuffers ext 0 0 := by
      simp only [seekToStart, hthrown]
    rw [hstate]
    refine ⟨hthrown, (b.seek ext 0 0).1, honly, ?_, seek_calls_after ext b 0 0,
      (seek_limits ext b 0 0).2, (seek_limits ext b 0 0).1, hsome, hw, hm⟩
    simp [CompressedReadBuffer.seek, hok]
  · rw [hfail] at hthrown
    refine ⟨e.addMessage s.seekToStartMessage, ?_, rfl, rfl, rfl⟩
    simp only [seekToStart, hthrown, if_pos hcode]
  · rw [hfail] at hthrown
    simp only [seekToStart, hthrown, if_neg hcode]
  · cases hr : (s.seekBuffers ext 0 0).thrown with
    | none =>
      refine ⟨s.seekBuffers ext 0 0, ?_, ?_, ?_, ?_⟩
      · simp only [seekToMark, hmark, hr]
      · simp only [seekToStart, hr]
      · simp only [seekToStart, hr]
      · intro e _
        simp only [seekToStart, hr]
    | some e₀ =>
      by_cases hc : e₀.code = ext.ARGUMENT_OUT_OF_BOUND
      · refine ⟨{ state := (s.seekBuffers ext 0 0).state
                  thrown := some (e₀.addMessage (s.seekToMarkMessage index ⟨0, 0⟩)) },
          ?_, ?_, ?_, ?_⟩
        · simp only [seekToMark, hmark, hr, if_pos hc]
        · simp only [seekToStart, hr, if_pos hc]
        · simp only [seekToStart, hr, if_pos hc]
          simp
        · intro e he
          simp only [seekToStart, hr, if_pos hc]
          constructor
          · intro h
            have h' : e₀.addMessage (s.seekToMarkMessage index ⟨0, 0⟩) = e := Option.some.inj h
            rw [← h'] at he
            exact absurd hc he
          · intro h
            have h' : e₀.addMessage s.seekToStartMessage = e := Option.some.inj h
            rw [← h'] at he
            exact absurd hc he
      · refine ⟨{ state := (s.seekBuffers ext 0 0).state, thrown := some e₀ }, ?_, ?_, ?_, ?_⟩
        · simp only [seekToMark, hmark, hr, if_neg hc]
        · simp only [seekToStart, hr, if_neg hc]
        · simp only [seekToStart, hr, if_neg hc]
        · intro e _
          simp only [seekToStart, hr, if_neg hc]

/-- The theorem of C13 at `sharedBlockReader`: a successful seek positions the
buffer at `(0, 0)`, and a failure with another error passes through. -/
theorem seekToStart_behaviour_witness :
    (sharedBlockReader.seekToStart seeksSucceed).thrown = none ∧
      (∃ b', (sharedBlockReader.seekToStart seeksSucceed).state.HasOnlyBuffer b' ∧
        b'.position = (0, 0)) ∧
      (sharedBlockReader.seekToStart seeksFailOtherwise).thrown =
        some { code := 3, message := "Unexpected end of file" } := by
  have h1 := (seekToStart_behaviour seeksSucceed sharedBlockReader
      { read_settings := ReadSettings.adjustBufferSize ReadSettings.default 200
        read_hint := 350
        profile_callback := false
        checksumming := true } (Or.inr ⟨rfl, rfl⟩)).1 rfl
  obtain ⟨h1a, b', h1b, h1c, _⟩ := h1
  exact ⟨h1a, ⟨b', h1b, h1c⟩, by decide⟩

/-! ## The constructor -/

theorem sizeSub_self (a : Nat) : sizeSub a a = 0 := by
  unfold sizeSub
  have h1 : a % 2 ^ 64 < 2 ^ 64 := Nat.mod_lt _ (by decide)
  have h2 : a = 2 ^ 64 * (a / 2 ^ 64) + a % 2 ^ 64 := (Nat.div_add_mod a (2 ^ 64)).symm
  have h3 : a + (2 ^ 64 - a % 2 ^ 64) = 2 ^ 64 * (a / 2 ^ 64 + 1) := by
    rw [Nat.mul_add]
    omega
  rw [h3]
  exact Nat.mul_mod_right _ _

/-- The loop of the constructor computes the largest of the resolved spans and
their sum modulo `2 ^ 64`, on top of what it starts from. -/
theorem markRangeBytes_eq (s : MergeTreeReaderStream) :
    ∀ (ranges : List MarkRange) (mx sm : Nat), sm < 2 ^ 64 →
      s.markRangeBytes ranges (mx, sm) =
        match s.resolvedSpans ranges with
        | none => none
        | some spans => some (max mx (maxSpan spans), (sm + spans.sum) % 2 ^ 64) := by
  intro ranges
  induction ranges with
  | nil =>
    intro mx sm hsm
    have hmod : sm % 2 ^ 64 = sm := Nat.mod_eq_of_lt hsm
    simp only [markRangeBytes, resolvedSpans, maxSpan, List.sum_nil, Nat.add_zero, hmod,
      Nat.max_zero]
  | cons r rest ih =>
    intro mx sm _
    cases hres : s.getRightOffsetAndBytesRange r.begin r.end with
    | none => simp [markRangeBytes, resolvedSpans, hres]
    | some p =>
      obtain ⟨right_offset, bytes⟩ := p
      have hlt : sizeAdd sm bytes < 2 ^ 64 := Nat.mod_lt _ (by decide)
      simp only [markRangeBytes, resolvedSpans, hres, ih (max mx bytes) (sizeAdd sm bytes) hlt]
      cases s.resolvedSpans rest with
      | none => rfl
      | some spans =>
        simp only [maxSpan, List.sum_cons, sizeAdd]
        have e1 : max (max mx bytes) (maxSpan spans) = max mx (max bytes (maxSpan spans)) :=
          Nat.max_assoc _ _ _
        have e2 : ((sm + bytes) % 2 ^ 64 + spans.sum) % 2 ^ 64 =
            (sm + (bytes + spans.sum)) % 2 ^ 64 := by
          rw [Nat.add_mod, Nat.mod_mod, ← Nat.add_mod, Nat.add_assoc]
        rw [e1, e2]

/-- C15: the constructor resolves every range of the list; it computes
`max_mark_range_bytes` as the largest and `sum_mark_range_bytes` as the sum
modulo `2 ^ 64` of the resolved spans, both `0` for the empty list. The one
buffer it opens has the read settings `adjustBufferSize` of the settings of the
reader and `max_mark_range_bytes` when this is not 0, and the settings of the
reader as they are otherwise; its size hint is `sum_mark_range_bytes`, with
and without an uncompressed cache. When a resolution is not defined, neither is
the construction. -/
theorem create_sizing ( path_prefix_ data_file_extension_ : String) (marks_count_ : Nat)
    (all_mark_ranges : List MarkRange) (settings : MergeTreeReaderSettings)
    (marks_loader_ : MergeTreeMarksLoader) (uncompressed_cache : Bool) (file_size_ : Nat)
    (profile_callback : Bool) :
    (initialised path_prefix_ data_file_extension_ marks_count_ settings marks_loader_
        file_size_).markRangeBytes [] (0, 0) = some (0, 0) ∧
    ((initialised path_prefix_ data_file_extension_ marks_count_ settings marks_loader_
        file_size_).resolvedSpans all_mark_ranges = none →
      create path_prefix_ data_file_extension_ marks_count_ all_mark_ranges settings
        marks_loader_ uncompressed_cache file_size_ profile_callback = none) ∧
    (∀ spans,
      (initialised path_prefix_ data_file_extension_ marks_count_ settings marks_loader_
        file_size_).resolvedSpans all_mark_ranges = some spans →
      (initialised path_prefix_ data_file_extension_ marks_count_ settings marks_loader_
        file_size_).markRangeBytes all_mark_ranges (0, 0) =
          some (maxSpan spans, sumSpans spans) ∧
      ∃ s b,
        create path_prefix_ data_file_extension_ marks_count_ all_mark_ranges settings
          marks_loader_ uncompressed_cache file_size_ profile_callback = some s ∧
        (uncompressed_cache = true → s.cached_buffer = some b ∧ s.non_cached_buffer = none) ∧
        (uncompressed_cache = false → s.cached_buffer = none ∧ s.non_cached_buffer = some b) ∧
        b.read_settings =
          (if maxSpan spans ≠ 0 then
            ReadSettings.adjustBufferSize settings.read_settings (maxSpan spans)
          else settings.read_settings) ∧
        b.read_hint = sumSpans spans) := by
  have hloop := markRangeBytes_eq
    (initialised path_prefix_ data_file_extension_ marks_count_ settings marks_loader_
      file_size_) all_mark_ranges 0 0 (by decide)
  refine ⟨rfl, fun hnone => ?_, fun spans hspans => ?_⟩
  · rw [hnone] at hloop
    have hloop' : markRangeBytes
        { path_prefix := path_prefix_, data_file_extension := data_file_extension_,
          marks_count := marks_count_, file_size := file_size_,
          save_marks_in_cache := settings.save_marks_in_cache,
          marks_loader := marks_loader_ } all_mark_ranges (0, 0) = none := hloop
    simp only [create, hloop']
  · rw [hspans] at hloop
    have hloop' : markRangeBytes
        { path_prefix := path_prefix_, data_file_extension := data_file_extension_,
          marks_count := marks_count_, file_size := file_size_,
          save_marks_in_cache := settings.save_marks_in_cache,
          marks_loader := marks_loader_ } all_mark_ranges (0, 0) =
        some (maxSpan spans, sumSpans spans) := by
      rw [show (some (maxSpan spans, sumSpans spans) : Option (Nat × Nat)) =
        some (max 0 (maxSpan spans), (0 + spans.sum) % 2 ^ 64) by
          simp [sumSpans]]
      exact hloop
    refine ⟨hloop', ?_⟩
    cases uncompressed_cache with
    | true =>
      refine ⟨{ initialised path_prefix_ data_file_extension_ marks_count_ settings
            marks_loader_ file_size_ with
          cached_buffer := some (openBuffer settings
            (adjustedReadSettings settings (maxSpan spans)) (sumSpans spans) profile_callback)
          data_buffer := some BufferMember.cached_buffer },
        openBuffer settings (adjustedReadSettings settings (maxSpan spans))
          (sumSpans spans) profile_callback, ?_, fun _ => ⟨rfl, rfl⟩,
        fun h => absurd h (by decide), rfl, rfl⟩
      simp only [create, hloop']
      rfl
    | false =>
      refine ⟨{ initialised path_prefix_ data_file_extension_ marks_count_ settings
            marks_loader_ file_size_ with
          non_cached_buffer := some (openBuffer settings
            (adjustedReadSettings settings (maxSpan spans)) (sumSpans spans) profile_callback)
          data_buffer := some BufferMember.non_cached_buffer },
        openBuffer settings (adjustedReadSettings settings (maxSpan spans))
          (sumSpans spans) profile_callback, ?_, fun h => absurd h (by decide),
        fun _ => ⟨rfl, rfl⟩, rfl, rfl⟩
      simp only [create, hloop']
      rfl

/-- An empty range at the start of a block that is not the last mark resolves
to the span 0. -/
theorem getRightOffsetAndBytesRange_empty_at_block_start (s : MergeTreeReaderStream)
    (hlen : s.MarksLoaded) (mark : Nat) (hm : mark + 1 < s.marks_count)
    (hin : s.inBlockOffset mark = 0) :
    s.getRightOffsetAndBytesRange mark mark = some (s.physicalOffset mark, 0) := by
  have hm' : mark < s.marks_count := by omega
  have hres := s.resultRightMark_not_extended hlen mark (fun h => by omega)
  have hcond : ¬ (mark + 1 = s.marks_count ∧ s.physicalOffset mark = s.physicalOffset mark) := by
    omega
  rw [s.getRightOffsetAndBytesRange_of_result_lt hlen hres hm' hm' hm', if_neg hcond,
    sizeSub_self]

theorem markRangeBytes_all_zero (s : MergeTreeReaderStream) :
    ∀ ranges : List MarkRange,
      (∀ r ∈ ranges, ∃ right_offset,
        s.getRightOffsetAndBytesRange r.begin r.end = some (right_offset, 0)) →
      s.markRangeBytes ranges (0, 0) = some (0, 0) := by
  intro ranges
  induction ranges with
  | nil => intro _; rfl
  | cons r rest ih =>
    intro h
    obtain ⟨ro, hro⟩ := h r (List.mem_cons_self r rest)
    simp only [markRangeBytes, hro]
    exact ih (fun r' hr' => h r' (List.mem_cons_of_mem r hr'))

/-- C14, as stated, fails. Over the non-decreasing marks of
`sharedBlockStream` the empty range `(2, 2)` ends inside a block and resolves
to the span 200; over the marks of `endOfFileStream` the empty range
`(10, 10)` at `marks_count` resolves to the span 1000, the file size, and the
empty range `(9, 9)` at the last mark to the span 50, the rest of the file.
In the first two constructions, shown here, `max_mark_range_bytes` is not 0
and `adjustBufferSize` is applied. -/
theorem create_empty_ranges_may_adjust :
    sharedBlockStream.MarksLoaded ∧ sharedBlockStream.NonDecreasing ∧
      endOfFileStream.MarksLoaded ∧ endOfFileStream.NonDecreasing ∧
      (initialised "column" ".bin" 10 {} sharedBlockStream.marks_loader 500).markRangeBytes
        [⟨2, 2⟩] (0, 0) = some (200, 200) ∧
      (create "column" ".bin" 10 [⟨2, 2⟩] {} sharedBlockStream.marks_loader false 500
          false).map (fun s => s.non_cached_buffer.map fun b => b.read_settings) =
        some (some (ReadSettings.adjustBufferSize ReadSettings.default 200)) ∧
      (initialised "column" ".bin" 10 {} endOfFileStream.marks_loader 1000).markRangeBytes
        [⟨10, 10⟩] (0, 0) = some (1000, 1000) ∧
      (initialised "column" ".bin" 10 {} endOfFileStream.marks_loader 1000).markRangeBytes
        [⟨9, 9⟩] (0, 0) = some (50, 50) ∧
      (create "column" ".bin" 10 [⟨10, 10⟩] {} endOfFileStream.marks_loader false 1000
          false).map (fun s => s.non_cached_buffer.map fun b => b.read_settings) =
        some (some (ReadSettings.adjustBufferSize ReadSettings.default 1000)) := by
  decide

/-- C14, amended: for a mark array of `marks_count` marks and every list
`all_mark_ranges` in which each range has `begin = end`, with `begin + 1 <
marks_count` and in-block offset 0 at `begin`, every resolved span is 0, the
constructor computes `max_mark_range_bytes = 0` and `sum_mark_range_bytes =
0`, `adjustBufferSize` is not applied, and the stream is opened with the read
settings of the reader as they are. -/
theorem create_all_empty_ranges ( path_prefix_ data_file_extension_ : String)
    (marks_count_ : Nat) (all_mark_ranges : List MarkRange)
    (settings : MergeTreeReaderSettings) (marks_loader_ : MergeTreeMarksLoader)
    (uncompressed_cache : Bool) (file_size_ : Nat) (profile_callback : Bool)
    (hlen : marks_loader_.marks.length = marks_count_)
    (hall : ∀ r ∈ all_mark_ranges, r.begin = r.end ∧ r.begin + 1 < marks_count_ ∧
      (initialised path_prefix_ data_file_extension_ marks_count_ settings marks_loader_
        file_size_).inBlockOffset r.begin = 0) :
    (∀ r ∈ all_mark_ranges, ∃ right_offset,
      (initialised path_prefix_ data_file_extension_ marks_count_ settings marks_loader_
        file_size_).getRightOffsetAndBytesRange r.begin r.end = some (right_offset, 0)) ∧
    (initialised path_prefix_ data_file_extension_ marks_count_ settings marks_loader_
        file_size_).markRangeBytes all_mark_ranges (0, 0) = some (0, 0) ∧
    ∃ s b,
      create path_prefix_ data_file_extension_ marks_count_ all_mark_ranges settings
        marks_loader_ uncompressed_cache file_size_ profile_callback = some s ∧
      (uncompressed_cache = true → s.cached_buffer = some b ∧ s.non_cached_buffer = none) ∧
      (uncompressed_cache = false → s.cached_buffer = none ∧ s.non_cached_buffer = some b) ∧
      b.read_settings = settings.read_settings ∧ b.read_hint = 0 := by
  have hspans : ∀ r ∈ all_mark_ranges, ∃ right_offset,
      (initialised path_prefix_ data_file_extension_ marks_count_ settings marks_loader_
        file_size_).getRightOffsetAndBytesRange r.begin r.end = some (right_offset, 0) := by
    intro r hr
    obtain ⟨h1, h2, h3⟩ := hall r hr
    refine ⟨(initialised path_prefix_ data_file_extension_ marks_count_ settings
      marks_loader_ file_size_).physicalOffset r.begin, ?_⟩
    rw [← h1]
    exact getRightOffsetAndBytesRange_empty_at_block_start _ hlen r.begin h2 h3
  have hloop := markRangeBytes_all_zero _ all_mark_ranges hspans
  have hloop' : markRangeBytes
      { path_prefix := path_prefix_, data_file_extension := data_file_extension_,
        marks_count := marks_count_, file_size := file_size_,
        save_marks_in_cache := settings.save_marks_in_cache,
        marks_loader := marks_loader_ } all_mark_ranges (0, 0) = some (0, 0) := hloop
  refine ⟨hspans, hloop, ?_⟩
  cases uncompressed_cache with
  | true =>
    refine ⟨{ initialised path_prefix_ data_file_extension_ marks_count_ settings
          marks_loader_ file_size_ with
        cached_buffer := some (openBuffer settings settings.read_settings 0 profile_callback)
        data_buffer := some BufferMember.cached_buffer },
      openBuffer settings settings.read_settings 0 profile_callback, ?_,
      fun _ => ⟨rfl, rfl⟩, fun h => absurd h (by decide), rfl, rfl⟩
    simp only [create, hloop']
    rfl
  | false =>
    refine ⟨{ initialised path_prefix_ data_file_extension_ marks_count_ settings
          marks_loader_ file_size_ with
        non_cached_buffer := some (openBuffer settings settings.read_settings 0 profile_callback)
        data_buffer := some BufferMember.non_cached_buffer },
      openBuffer settings settings.read_settings 0 profile_callback, ?_,
      fun h => absurd h (by decide), fun _ => ⟨rfl, rfl⟩, rfl, rfl⟩
    simp only [create, hloop']
    rfl

/-- The theorem of C14 over the marks of `endOfFileStream`, with the empty
ranges `(3, 3)` and `(4, 4)`. -/
theorem create_all_empty_ranges_witness :
    (initialised "column" ".bin" 10 {} endOfFileStream.marks_loader 1000).markRangeBytes
        [⟨3, 3⟩, ⟨4, 4⟩] (0, 0) = some (0, 0) ∧
      (create "column" ".bin" 10 [⟨3, 3⟩, ⟨4, 4⟩] {} endOfFileStream.marks_loader false 1000
          false).map (fun s => s.non_cached_buffer.map fun b => b.read_settings) =
        some (some ReadSettings.default) :=
  ⟨(create_all_empty_ranges "column" ".bin" 10 [⟨3, 3⟩, ⟨4, 4⟩] {}
      endOfFileStream.marks_loader false 1000 false (by decide) (by decide)).2.1,
    by decide⟩

/-! ## The two buffers -/

/-- The `try` block of the seek operations populates no buffer, empties none
and leaves `data_buffer` alone. -/
theorem seekBuffers_members (ext : External) (s : MergeTreeReaderStream) (x y : Nat) :
    (s.seekBuffers ext x y).state.cached_buffer.isSome = s.cached_buffer.isSome ∧
      (s.seekBuffers ext x y).state.non_cached_buffer.isSome = s.non_cached_buffer.isSome ∧
      (s.seekBuffers ext x y).state.data_buffer = s.data_buffer := by
  unfold seekBuffers
  cases hc : s.cached_buffer with
  | none =>
    cases hn : s.non_cached_buffer with
    | none => simp [hc, hn]
    | some nb => simp [hc, hn]
  | some cb =>
    simp only []
    cases ho : (cb.seek ext x y).2 with
    | some e => simp
    | none =>
      simp only []
      cases hn : s.non_cached_buffer with
      | none => simp [hn]
      | some nb => simp [hn]

theorem step_members (ext : External) (s s' : MergeTreeReaderStream) (c : Call)
    (h : s.step ext c = some s') :
    s'.cached_buffer.isSome = s.cached_buffer.isSome ∧
      s'.non_cached_buffer.isSome = s.non_cached_buffer.isSome ∧
      s'.data_buffer = s.data_buffer := by
  cases c with
  | seekToMark index =>
    simp only [step] at h
    obtain ⟨o, ho, rfl⟩ := Option.map_eq_some'.mp h
    obtain ⟨x, y, e⟩ := s.seekToMark_state ext index o ho
    rw [e]
    exact s.seekBuffers_members ext x y
  | seekToStart =>
    simp only [step] at h
    have e := Option.some.inj h
    rw [← e, s.seekToStart_state ext]
    exact s.seekBuffers_members ext 0 0
  | adjustForRange left_mark right_mark =>
    simp only [step, adjustForRange] at h
    cases hres : s.getRightOffsetAndBytesRange left_mark right_mark with
    | none => simp [hres] at h
    | some p =>
      simp only [hres] at h
      split at h
      · have e := Option.some.inj h
        subst e
        exact ⟨by simp, by simp, rfl⟩
      · have e := Option.some.inj h
        subst e
        exact ⟨rfl, rfl, rfl⟩

theorem run_members (ext : External) :
    ∀ (calls : List Call) (s : MergeTreeReaderStream), ∀ t ∈ run ext s calls,
      t.cached_buffer.isSome = s.cached_buffer.isSome ∧
        t.non_cached_buffer.isSome = s.non_cached_buffer.isSome ∧
        t.data_buffer = s.data_buffer := by
  intro calls
  induction calls with
  | nil => intro s t ht; simp [run] at ht
  | cons c cs ih =>
    intro s t ht
    cases hstep : s.step ext c with
    | none => simp [run, hstep] at ht
    | some s' =>
      obtain ⟨h1, h2, h3⟩ := s.step_members ext s' c hstep
      simp only [run, hstep] at ht
      rcases List.mem_cons.mp ht with rfl | ht
      · exact ⟨h1, h2, h3⟩
      · obtain ⟨i1, i2, i3⟩ := ih s' t ht
        exact ⟨i1.trans h1, i2.trans h2, i3.trans h3⟩

/-- What the constructor leaves in the two buffer members and in
`data_buffer`. -/
theorem create_members ( path_prefix_ data_file_extension_ : String) (marks_count_ : Nat)
    (all_mark_ranges : List MarkRange) (settings : MergeTreeReaderSettings)
    (marks_loader_ : MergeTreeMarksLoader) (uncompressed_cache : Bool) (file_size_ : Nat)
    (profile_callback : Bool) (s : MergeTreeReaderStream)
    (h : create path_prefix_ data_file_extension_ marks_count_ all_mark_ranges settings
      marks_loader_ uncompressed_cache file_size_ profile_callback = some s) :
    (uncompressed_cache = true →
      s.cached_buffer.isSome = true ∧ s.non_cached_buffer = none ∧
        s.data_buffer = some BufferMember.cached_buffer) ∧
    (uncompressed_cache = false →
      s.cached_buffer = none ∧ s.non_cached_buffer.isSome = true ∧
        s.data_buffer = some BufferMember.non_cached_buffer) := by
  unfold create at h
  simp only [] at h
  split at h
  · exact absurd h (by simp)
  · split at h
    · rename_i huc
      have e := Option.some.inj h
      subst e
      exact ⟨fun _ => ⟨rfl, rfl, rfl⟩, fun hf => by rw [hf] at huc; exact absurd huc (by decide)⟩
    · rename_i huc
      have e := Option.some.inj h
      subst e
      exact ⟨fun ht => absurd ht huc, fun _ => ⟨rfl, rfl, rfl⟩⟩

/-- C16: after construction exactly one of `cached_buffer` and
`non_cached_buffer` is populated, `cached_buffer` if and only if an
uncompressed cache was supplied, and `data_buffer` points to it. In every
state reached by `seekToMark`, `seekToStart` and `adjustForRange` calls the
same member is populated, the other is not, and `data_buffer` is as the
constructor left it; so there is exactly one buffer to receive a seek or a
limit. -/
theorem exactly_one_buffer (ext : External)
    ( path_prefix_ data_file_extension_ : String) (marks_count_ : Nat)
    (all_mark_ranges : List MarkRange) (settings : MergeTreeReaderSettings)
    (marks_loader_ : MergeTreeMarksLoader) (uncompressed_cache : Bool) (file_size_ : Nat)
    (profile_callback : Bool) (s₀ : MergeTreeReaderStream) (calls : List Call)
    (hcreate : create path_prefix_ data_file_extension_ marks_count_ all_mark_ranges settings
      marks_loader_ uncompressed_cache file_size_ profile_callback = some s₀) :
    ∀ t ∈ s₀ :: run ext s₀ calls,
      (∃ b, t.HasOnlyBuffer b) ∧
      (t.cached_buffer.isSome = uncompressed_cache) ∧
      (t.non_cached_buffer.isSome = !uncompressed_cache) ∧
      t.data_buffer =
        some (if uncompressed_cache then BufferMember.cached_buffer
          else BufferMember.non_cached_buffer) := by
  have h0 := create_members path_prefix_ data_file_extension_ marks_count_ all_mark_ranges
    settings marks_loader_ uncompressed_cache file_size_ profile_callback s₀ hcreate
  have key : ∀ t : MergeTreeReaderStream,
      t.cached_buffer.isSome = s₀.cached_buffer.isSome →
      t.non_cached_buffer.isSome = s₀.non_cached_buffer.isSome →
      t.data_buffer = s₀.data_buffer →
      (∃ b, t.HasOnlyBuffer b) ∧
      (t.cached_buffer.isSome = uncompressed_cache) ∧
      (t.non_cached_buffer.isSome = !uncompressed_cache) ∧
      t.data_buffer =
        some (if uncompressed_cache then BufferMember.cached_buffer
          else BufferMember.non_cached_buffer) := by
    intro t h1 h2 h3
    cases uncompressed_cache with
    | true =>
      obtain ⟨c1, c2, c3⟩ := h0.1 rfl
      rw [c1] at h1
      rw [c2] at h2
      rw [c3] at h3
      obtain ⟨b, hb⟩ := Option.isSome_iff_exists.mp h1
      have hn : t.non_cached_buffer = none := by
        cases hnb : t.non_cached_buffer with
        | none => rfl
        | some nb => rw [hnb] at h2; simp at h2
      exact ⟨⟨b, Or.inl ⟨hb, hn⟩⟩, h1, by rw [hn]; rfl, h3⟩
    | false =>
      obtain ⟨c1, c2, c3⟩ := h0.2 rfl
      rw [c1] at h1
      rw [c2] at h2
      rw [c3] at h3
      obtain ⟨b, hb⟩ := Option.isSome_iff_exists.mp h2
      have hc : t.cached_buffer = none := by
        cases hcb : t.cached_buffer with
        | none => rfl
        | some cb => rw [hcb] at h1; simp at h1
      exact ⟨⟨b, Or.inr ⟨hc, hb⟩⟩, by rw [hc]; rfl, h2, h3⟩
  intro t ht
  rcases List.mem_cons.mp ht with rfl | ht
  · exact key _ rfl rfl rfl
  · obtain ⟨i1, i2, i3⟩ := run_members ext calls s₀ t ht
    exact key t i1 i2 i3

/-- The theorem of C16 at the stream constructed without a cache over the
marks of `sharedBlockStream`, after three calls. -/
theorem exactly_one_buffer_witness :
    create "column" ".bin" 10 [⟨1, 2⟩, ⟨5, 7⟩] {} sharedBlockStream.marks_loader false 500 false
        = some sharedBlockReader ∧
      (run seeksFailPast400 sharedBlockReader
        [Call.adjustForRange 1 2, Call.seekToMark 9, Call.seekToStart]).length = 3 ∧
      ∀ t ∈ sharedBlockReader :: run seeksFailPast400 sharedBlockReader
          [Call.adjustForRange 1 2, Call.seekToMark 9, Call.seekToStart],
        (∃ b, t.HasOnlyBuffer b) ∧ t.cached_buffer.isSome = false ∧
        t.non_cached_buffer.isSome = !false ∧
        t.data_buffer = some (if false = true then BufferMember.cached_buffer
          else BufferMember.non_cached_buffer) :=
  ⟨by decide, by decide,
    exactly_one_buffer seeksFailPast400 "column" ".bin" 10 [⟨1, 2⟩, ⟨5, 7⟩] {}
      sharedBlockStream.marks_loader false 500 false sharedBlockReader
      [Call.adjustForRange 1 2, Call.seekToMark 9, Call.seekToStart] (by decide)⟩

/-! ## Robustness of the resolver -/

/-- C17: for every mark array of `marks_count` marks, whether or not its
physical offsets are non-decreasing, and every `left_mark <= right_mark <=
marks_count`, the resolver returns a pair: the binary search ends within its
rounds at an index between `right_mark` and `marks_count`, and no lookup of the
in-block test, the search, the tail test or the two offsets is outside the
array. A lookup at an index that is not below `marks_count` has no result, and
the resolver has none as soon as one of its lookups has none. -/
theorem getRightOffsetAndBytesRange_defined (s : MergeTreeReaderStream)
    (left_mark right_mark : Nat) (hlen : s.MarksLoaded) (hlr : left_mark ≤ right_mark)
    (hr : right_mark ≤ s.marks_count) :
    (∀ i, s.marks_count ≤ i → s.marks_loader.getMark i = none) ∧
    (∃ k, s.resultRightMark right_mark = some k ∧ right_mark ≤ k ∧ k ≤ s.marks_count ∧
      ∃ c, s.useFileSize k right_mark = some c) ∧
    ∃ right_offset mark_range_bytes,
      s.getRightOffsetAndBytesRange left_mark right_mark =
        some (right_offset, mark_range_bytes) := by
  have hout : ∀ i, s.marks_count ≤ i → s.marks_loader.getMark i = none := by
    intro i hi
    unfold MergeTreeMarksLoader.getMark
    exact List.getElem?_eq_none (by rw [hlen]; exact hi)
  have key : ∀ k, s.resultRightMark right_mark = some k → right_mark ≤ k →
      k ≤ s.marks_count →
      (∃ c, s.useFileSize k right_mark = some c) ∧
      ∃ right_offset mark_range_bytes,
        s.getRightOffsetAndBytesRange left_mark right_mark =
          some (right_offset, mark_range_bytes) := by
    intro k hres hrk hk
    rcases Nat.eq_or_lt_of_le hk with hkeq | hklt
    · refine ⟨⟨true, ?_⟩, _, _,
        s.getRightOffsetAndBytesRange_of_result_ge hlen left_mark hres (by omega)⟩
      simp [useFileSize, hkeq]
    · have hrlt : right_mark < s.marks_count := by omega
      have hl : left_mark < s.marks_count := by omega
      have hmain := s.getRightOffsetAndBytesRange_of_result_lt hlen hres hklt hl hrlt
      refine ⟨?_, ?_⟩
      · unfold useFileSize
        have hk' : ¬ k ≥ s.marks_count := by omega
        by_cases h1 : k + 1 = s.marks_count
        · simp [hk', h1, s.getMark_eq hlen hklt, s.getMark_eq hlen hrlt]
        · simp [hk', h1]
      · by_cases hcond : k + 1 = s.marks_count ∧
            s.physicalOffset k = s.physicalOffset right_mark
        · rw [if_pos hcond] at hmain
          exact ⟨_, _, hmain⟩
        · rw [if_neg hcond] at hmain
          exact ⟨_, _, hmain⟩
  by_cases hin : right_mark < s.marks_count ∧ 0 < s.inBlockOffset right_mark
  · obtain ⟨k, hk, h1, h2, _, _⟩ := s.resultRightMark_extended hlen hin.1 hin.2
    obtain ⟨a, b⟩ := key k hk (by omega) h2
    exact ⟨hout, ⟨k, hk, by omega, h2, a⟩, b⟩
  · have hk := s.resultRightMark_not_extended hlen right_mark hin
    obtain ⟨a, b⟩ := key right_mark hk (Nat.le_refl _) hr
    exact ⟨hout, ⟨right_mark, hk, Nat.le_refl _, hr, a⟩, b⟩

/-- The theorem of C17 at `unorderedStream`, whose offsets decrease. -/
theorem getRightOffsetAndBytesRange_defined_witness :
    unorderedStream.MarksLoaded ∧
      unorderedStream.getRightOffsetAndBytesRange 0 0 = some (500, 200) ∧
      ∃ right_offset mark_range_bytes,
        unorderedStream.getRightOffsetAndBytesRange 0 2 =
          some (right_offset, mark_range_bytes) :=
  ⟨by decide, by decide,
    (getRightOffsetAndBytesRange_defined unorderedStream 0 2 (by decide) (by decide)
      (by decide)).2.2⟩

/-- C19: for every mark array of `marks_count >= 1` marks, non-decreasing or
not, and every `left_mark <= right_mark` with `right_mark = marks_count - 1`,
the resolver returns `file_size` as right offset, whatever the in-block offset
of the last mark. For every `right_mark < marks_count` with in-block offset 0
the right mark is not extended, and the test "no marks after the end of range"
holds if and only if `right_mark + 1 = marks_count`. -/
theorem getRightOffsetAndBytesRange_last_mark (s : MergeTreeReaderStream)
    (left_mark right_mark : Nat) (hlen : s.MarksLoaded) (hcount : 1 ≤ s.marks_count)
    (hlr : left_mark ≤ right_mark) (hr : right_mark = s.marks_count - 1) :
    s.getRightOffsetAndBytesRange left_mark right_mark =
      some (s.file_size, sizeSub s.file_size (s.physicalOffset left_mark)) ∧
    ∀ r, r < s.marks_count → s.inBlockOffset r = 0 →
      s.resultRightMark r = some r ∧
      (s.useFileSize r r = some true ↔ r + 1 = s.marks_count) ∧
      (s.useFileSize r r = some false ↔ r + 1 ≠ s.marks_count) := by
  have hrlt : right_mark < s.marks_count := by omega
  have hl : left_mark < s.marks_count := by omega
  constructor
  · by_cases hin : 0 < s.inBlockOffset right_mark
    · obtain ⟨k, hk, h1, h2, _, _⟩ := s.resultRightMark_extended hlen hrlt hin
      rw [s.getRightOffsetAndBytesRange_of_result_ge hlen left_mark hk (by omega)]
      simp [leftOffset, hl]
    · have hk := s.resultRightMark_not_extended hlen right_mark (fun h => hin h.2)
      rw [s.getRightOffsetAndBytesRange_of_result_lt hlen hk hrlt hl hrlt]
      have hcond : right_mark + 1 = s.marks_count ∧
          s.physicalOffset right_mark = s.physicalOffset right_mark := ⟨by omega, rfl⟩
      rw [if_pos hcond]
  · intro r hrm hin
    have hk := s.resultRightMark_not_extended hlen r (fun h => by omega)
    have hnot : ¬ r ≥ s.marks_count := by omega
    refine ⟨hk, ?_, ?_⟩
    · unfold useFileSize
      by_cases h1 : r + 1 = s.marks_count
      · simp [hnot, h1, s.getMark_eq hlen hrm]
      · simp [hnot, h1]
    · unfold useFileSize
      by_cases h1 : r + 1 = s.marks_count
      · simp [hnot, h1, s.getMark_eq hlen hrm]
      · simp [hnot, h1]

/-- The theorem of C19 at `sharedBlockStream`, whose last mark lies inside its
block, and at `blockStartStream`, whose last mark starts its block. -/
theorem getRightOffsetAndBytesRange_last_mark_witness :
    sharedBlockStream.getRightOffsetAndBytesRange 7 9 = some (500, 100) ∧
      blockStartStream.getRightOffsetAndBytesRange 7 9 = some (500, 100) :=
  ⟨(getRightOffsetAndBytesRange_last_mark sharedBlockStream 7 9 (by decide) (by decide)
      (by decide) (by decide)).1,
    (getRightOffsetAndBytesRange_last_mark blockStartStream 7 9 (by decide) (by decide)
      (by decide) (by decide)).1⟩

end MergeTreeReaderStream

/-! ## The scale factors of `fromReadableSize` -/

/-- C18: the table that `Impl::getScaleFactors` returns has exactly the seven
lowercase keys b, kib, mib, gib, tib, pib, eib, each once, mapped to the
powers `1024 ^ 0` to `1024 ^ 6`; each factor is 1024 times the one before, all
are below `2 ^ 63` and so fit the `long` in which the source computes them and
the 64-bit `size_t` in which it stores them; and 1 B is 1, 1 KiB is 1024 and
3 MiB are 3145728 bytes. -/
theorem getScaleFactors_table :
    Impl.getScaleFactors =
      [("b", 1024 ^ 0), ("kib", 1024 ^ 1), ("mib", 1024 ^ 2), ("gib", 1024 ^ 3),
        ("tib", 1024 ^ 4), ("pib", 1024 ^ 5), ("eib", 1024 ^ 6)] ∧
    (Impl.getScaleFactors.map Prod.fst).Nodup ∧
    (∀ entry ∈ Impl.getScaleFactors, entry.2 < 2 ^ 63) ∧
    (∀ pair ∈ Impl.getScaleFactors.zip Impl.getScaleFactors.tail,
      pair.2.2 = 1024 * pair.1.2) ∧
    (scaleFactor "b").map (fun f => 1 * f) = some 1 ∧
    (scaleFactor "kib").map (fun f => 1 * f) = some 1024 ∧
    (scaleFactor "mib").map (fun f => 3 * f) = some 3145728 := by
  refine ⟨by decide, by decide, by decide, by decide, by decide, by decide, by decide⟩

namespace MergeTreeReaderStream

/-! ## The right edge as a function of the right mark -/

theorem inBlockOffset_pos_of_ordered (s : MergeTreeReaderStream) (hlen : s.MarksLoaded)
    (hord : s.InBlockOrdered) {i j : Nat} (hij : i < j) (hj : j < s.marks_count)
    (hoff : s.physicalOffset i = s.physicalOffset j) (hin : 0 < s.inBlockOffset i) :
    0 < s.inBlockOffset j := by
  have hj' : j < s.marks_loader.marks.length := by rw [hlen]; exact hj
  have hi' : i < s.marks_loader.marks.length := by omega
  have h := (List.pairwise_iff_getElem.mp hord) i j hi' hj' hij
  simp only [physicalOffset, inBlockOffset, MergeTreeMarksLoader.getMark,
    List.getElem?_eq_getElem hi', List.getElem?_eq_getElem hj'] at hoff hin ⊢
  exact h hoff hin

/-- The watermark after `adjustForRange` is the larger of the watermark before
and the resolved right offset; the marks, `marks_count` and `file_size` stay. -/
theorem adjustForRange_watermark (s t : MergeTreeReaderStream)
    (left_mark right_mark right_offset mark_range_bytes : Nat)
    (hres : s.getRightOffsetAndBytesRange left_mark right_mark =
      some (right_offset, mark_range_bytes))
    (h : s.adjustForRange left_mark right_mark = some t) :
    t.last_right_offset = max s.last_right_offset right_offset ∧
      t.marks_loader = s.marks_loader ∧ t.marks_count = s.marks_count ∧
      t.file_size = s.file_size := by
  simp only [adjustForRange, hres] at h
  by_cases hgt : right_offset > s.last_right_offset
  · rw [if_pos hgt] at h
    have e := Option.some.inj h
    subst e
    exact ⟨(Nat.max_eq_right (Nat.le_of_lt hgt)).symm, rfl, rfl, rfl⟩
  · rw [if_neg hgt] at h
    have e := Option.some.inj h
    subst e
    exact ⟨(Nat.max_eq_left (by omega)).symm, rfl, rfl, rfl⟩

/-- On non-decreasing offsets within the file, with in-block offsets ordered
inside each block, the resolved right offset is non-decreasing in the right
mark. -/
theorem right_offset_mono (s : MergeTreeReaderStream) (left_mark r₁ r₂ : Nat)
    (hlen : s.MarksLoaded) (hmono : s.NonDecreasing) (hfile : s.WithinFile)
    (hord : s.InBlockOrdered) (hl : left_mark ≤ r₁) (h12 : r₁ ≤ r₂)
    (h2 : r₂ ≤ s.marks_count) :
    ∃ ro₁ b₁ ro₂ b₂,
      s.getRightOffsetAndBytesRange left_mark r₁ = some (ro₁, b₁) ∧
      s.getRightOffsetAndBytesRange left_mark r₂ = some (ro₂, b₂) ∧ ro₁ ≤ ro₂ := by
  obtain ⟨ro₁, hres₁, hle₁, hlow₁, _⟩ :=
    s.getRightOffsetAndBytesRange_bounds left_mark r₁ hlen hmono hfile hl (by omega)
  obtain ⟨ro₂, hres₂, hle₂, hlow₂, hend₂⟩ :=
    s.getRightOffsetAndBytesRange_bounds left_mark r₂ hlen hmono hfile (by omega) h2
  refine ⟨ro₁, _, ro₂, _, hres₁, hres₂, ?_⟩
  rcases Nat.eq_or_lt_of_le h12 with heq | hlt12
  · subst heq
    rw [hres₁] at hres₂
    have e : ro₁ = ro₂ := by
      have := Option.some.inj hres₂
      exact congrArg Prod.fst this
    omega
  rcases Nat.eq_or_lt_of_le h2 with hend | hlt2
  · rw [hend₂ hend]; exact hle₁
  have hr₁ : r₁ < s.marks_count := by omega
  have hl' : left_mark < s.marks_count := by omega
  have hlow := hlow₂ hlt2
  have hoff12 := s.physicalOffset_mono hlen hmono h12 hlt2
  by_cases hin : 0 < s.inBlockOffset r₁
  · obtain ⟨k, hk, hk1, hk2, hk3, hk4⟩ := s.resultRightMark_extended hlen hr₁ hin
    by_cases hge : k ≤ r₂
    · have hklt : k < s.marks_count := by omega
      have hoffk : s.physicalOffset r₁ < s.physicalOffset k := by
        rcases hk3 with h | h
        · omega
        · exact h
      have hmain := s.getRightOffsetAndBytesRange_of_result_lt hlen hk hklt hl' hr₁
      have hcond : ¬ (k + 1 = s.marks_count ∧ s.physicalOffset k = s.physicalOffset r₁) := by
        omega
      rw [if_neg hcond, hres₁] at hmain
      have e : ro₁ = s.physicalOffset k := congrArg Prod.fst (Option.some.inj hmain)
      have m := s.physicalOffset_mono hlen hmono hge hlt2
      omega
    · have hr2k : r₂ ≤ k - 1 := by omega
      have m1 := s.physicalOffset_mono hlen hmono hr2k (by omega)
      have hsame : s.physicalOffset r₁ = s.physicalOffset r₂ := by omega
      have hin₂ := s.inBlockOffset_pos_of_ordered hlen hord hlt12 hlt2 hsame hin
      obtain ⟨k', hk', hk1', hk2', hk3', hk4'⟩ := s.resultRightMark_extended hlen hlt2 hin₂
      have hkk : k' = k := by
        rcases Nat.lt_trichotomy k' k with hlt | heq | hgt
        · have hoffk' : s.physicalOffset r₂ < s.physicalOffset k' := by
            rcases hk3' with h | h
            · omega
            · exact h
          have m2 := s.physicalOffset_mono hlen hmono (show k' ≤ k - 1 by omega) (by omega)
          omega
        · exact heq
        · have hoffk : s.physicalOffset r₁ < s.physicalOffset k := by
            rcases hk3 with h | h
            · omega
            · exact h
          have m2 := s.physicalOffset_mono hlen hmono (show k ≤ k' - 1 by omega) (by omega)
          omega
      rw [hkk] at hk'
      rcases Nat.eq_or_lt_of_le hk2 with hkeq | hklt
      · have a₁ := s.getRightOffsetAndBytesRange_of_result_ge hlen left_mark hk (by omega)
        have a₂ := s.getRightOffsetAndBytesRange_of_result_ge hlen left_mark hk' (by omega)
        rw [hres₁] at a₁
        rw [hres₂] at a₂
        have e₁ : ro₁ = s.file_size := congrArg Prod.fst (Option.some.inj a₁)
        have e₂ : ro₂ = s.file_size := congrArg Prod.fst (Option.some.inj a₂)
        omega
      · have a₁ := s.getRightOffsetAndBytesRange_of_result_lt hlen hk hklt hl' hr₁
        have a₂ := s.getRightOffsetAndBytesRange_of_result_lt hlen hk' hklt hl' hlt2
        rw [← hsame] at a₂
        rw [hres₁] at a₁
        rw [hres₂] at a₂
        have e : ro₁ = ro₂ := by
          have := a₁.trans a₂.symm
          exact congrArg Prod.fst (Option.some.inj this)
        omega
  · have hk := s.resultRightMark_not_extended hlen r₁ (fun h => hin h.2)
    have hmain := s.getRightOffsetAndBytesRange_of_result_lt hlen hk hr₁ hl' hr₁
    have hcond : ¬ (r₁ + 1 = s.marks_count ∧ s.physicalOffset r₁ = s.physicalOffset r₁) := by
      omega
    rw [if_neg hcond, hres₁] at hmain
    have e : ro₁ = s.physicalOffset r₁ := congrArg Prod.fst (Option.some.inj hmain)
    omega

theorem adjustForRange_returns (s : MergeTreeReaderStream)
    (left_mark right_mark right_offset mark_range_bytes : Nat)
    (hres : s.getRightOffsetAndBytesRange left_mark right_mark =
      some (right_offset, mark_range_bytes)) :
    ∃ t, s.adjustForRange left_mark right_mark = some t := by
  simp only [adjustForRange, hres]
  by_cases hgt : right_offset > s.last_right_offset
  · rw [if_pos hgt]; exact ⟨_, rfl⟩
  · rw [if_neg hgt]; exact ⟨_, rfl⟩

/-- C20, as stated, fails: the marks of `decreasingInBlockStream` have
non-decreasing physical offsets within the file, and with the left mark 0 the
right mark 0 resolves to the right offset 500 while the later right mark 1
resolves to 100. Mark 0 lies inside the block and the search runs to the end
of the file; mark 1 is at the start of the same block and is not extended. -/
theorem right_offset_not_monotone_without_order :
    decreasingInBlockStream.MarksLoaded ∧ decreasingInBlockStream.NonDecreasing ∧
      decreasingInBlockStream.WithinFile ∧ (1 : Nat) ≤ decreasingInBlockStream.marks_count ∧
      decreasingInBlockStream.getRightOffsetAndBytesRange 0 0 = some (500, 400) ∧
      decreasingInBlockStream.getRightOffsetAndBytesRange 0 1 = some (100, 0) := by
  decide

/-- C20, amended: for every mark array with non-decreasing physical offsets,
all at most `file_size`, in which a mark that shares its physical offset with
an earlier mark of nonzero in-block offset has a nonzero in-block offset too,
every `left_mark` and every `r₁ <= r₂ <= marks_count` with `left_mark <= r₁`,
the right offset resolved for `(left_mark, r₁)` is at most the one resolved for
`(left_mark, r₂)`. Consequently `adjustForRange` on the first range and then
on the second leaves the watermark at or above both resolved right offsets. -/
theorem right_offset_monotone_in_right_mark (s : MergeTreeReaderStream)
    (left_mark r₁ r₂ : Nat) (hlen : s.MarksLoaded) (hmono : s.NonDecreasing)
    (hfile : s.WithinFile) (hord : s.InBlockOrdered) (hl : left_mark ≤ r₁) (h12 : r₁ ≤ r₂)
    (h2 : r₂ ≤ s.marks_count) :
    ∃ ro₁ b₁ ro₂ b₂,
      s.getRightOffsetAndBytesRange left_mark r₁ = some (ro₁, b₁) ∧
      s.getRightOffsetAndBytesRange left_mark r₂ = some (ro₂, b₂) ∧ ro₁ ≤ ro₂ ∧
      ∃ t₁ t₂, s.adjustForRange left_mark r₁ = some t₁ ∧
        t₁.adjustForRange left_mark r₂ = some t₂ ∧
        ro₁ ≤ t₂.last_right_offset ∧ ro₂ ≤ t₂.last_right_offset ∧
        t₂.last_right_offset = max s.last_right_offset ro₂ := by
  obtain ⟨ro₁, b₁, ro₂, b₂, hres₁, hres₂, hle⟩ :=
    s.right_offset_mono left_mark r₁ r₂ hlen hmono hfile hord hl h12 h2
  obtain ⟨t₁, ht₁⟩ := s.adjustForRange_returns left_mark r₁ ro₁ b₁ hres₁
  obtain ⟨w₁, m₁, c₁, f₁⟩ := s.adjustForRange_watermark t₁ left_mark r₁ ro₁ b₁ hres₁ ht₁
  have hres₂' : t₁.getRightOffsetAndBytesRange left_mark r₂ = some (ro₂, b₂) := by
    rw [getRightOffsetAndBytesRange_congr s t₁ m₁ c₁ f₁]; exact hres₂
  obtain ⟨t₂, ht₂⟩ := t₁.adjustForRange_returns left_mark r₂ ro₂ b₂ hres₂'
  obtain ⟨w₂, _, _, _⟩ := t₁.adjustForRange_watermark t₂ left_mark r₂ ro₂ b₂ hres₂' ht₂
  refine ⟨ro₁, b₁, ro₂, b₂, hres₁, hres₂, hle, t₁, t₂, ht₁, ht₂, ?_, ?_, ?_⟩
  · rw [w₂, w₁]; omega
  · rw [w₂]; omega
  · rw [w₂, w₁]; omega

/-- The theorem of C20 at `sharedBlockStream`, left mark 1 and right marks 2
and 7: the right offsets are 300 and 450. -/
theorem right_offset_monotone_in_right_mark_witness :
    sharedBlockStream.MarksLoaded ∧ sharedBlockStream.NonDecreasing ∧
      sharedBlockStream.WithinFile ∧ sharedBlockStream.InBlockOrdered ∧
      sharedBlockStream.getRightOffsetAndBytesRange 1 2 = some (300, 200) ∧
      sharedBlockStream.getRightOffsetAndBytesRange 1 7 = some (450, 350) ∧
      ∃ ro₁ b₁ ro₂ b₂,
        sharedBlockStream.getRightOffsetAndBytesRange 1 2 = some (ro₁, b₁) ∧
        sharedBlockStream.getRightOffsetAndBytesRange 1 7 = some (ro₂, b₂) ∧ ro₁ ≤ ro₂ := by
  obtain ⟨ro₁, b₁, ro₂, b₂, h1, h2, h3, _⟩ :=
    right_offset_monotone_in_right_mark sharedBlockStream 1 2 7 (by decide) (by decide)
      (by decide) (by decide) (by decide) (by decide) (by decide)
  exact ⟨by decide, by decide, by decide, by decide, by decide, by decide,
    ro₁, b₁, ro₂, b₂, h1, h2, h3⟩

end MergeTreeReaderStream

end DB
